import Mathlib

/-!
# Stencil evaluation kernel (`opensubdiv/osd/tbbKernel.cpp`)

A shallow embedding of the TBB stencil kernel and a verification of its
specification.

Conventions of the embedding.

* C `int` values are mathematical integers (`Int`); signed overflow is undefined
  behaviour in C++ and is not modelled.
* `float` values are elements of an arbitrary type `α` carrying `0`, `+` and `*`;
  no law of arithmetic is assumed by the definitions, so a result that holds for
  every `α` holds for every evaluation order-preserving interpretation of the
  arithmetic.  Statements about sums are made over commutative semirings
  (exact arithmetic).
* An array is a `List`; a pointer is an array together with an integer position.
  Every access is checked: an access outside the array makes the whole
  computation `none` (undefined behaviour in the source).
* The source and the destination buffer are distinct arrays.
-/

namespace Osd

/-- The constant `grain_size` of the source file. -/
def grain_size : Int := 200

/-- The descriptor `VertexBufferDescriptor` (declared in `vertexDescriptor.h`):
three `int` fields. -/
structure VertexBufferDescriptor where
  offset : Int
  length : Int
  stride : Int
deriving DecidableEq, Repr

/-- A pointer to constant data: the array pointed into and a position in it. -/
structure Ptr (β : Type) where
  mem : List β
  pos : Int

/-- Read of the cell at position `p` of an array. -/
def load {β : Type} (mem : List β) (p : Int) : Option β :=
  if p < 0 then none else mem[p.toNat]?

/-- Write of the cell at position `p` of an array. -/
def store {β : Type} (mem : List β) (p : Int) (v : β) : Option (List β) :=
  if 0 ≤ p ∧ p.toNat < mem.length then some (mem.set p.toNat v) else none

/-- Pointer arithmetic `p + n`. -/
def Ptr.add {β : Type} (p : Ptr β) (n : Int) : Ptr β := ⟨p.mem, p.pos + n⟩

/-- The read `p[k]`. -/
def Ptr.get {β : Type} (p : Ptr β) (k : Int) : Option β := load p.mem (p.pos + k)

/-- The function `elementAtIndex`: `src + index * desc.stride`, on positions. -/
def elementAtIndex (src : Int) (index : Int) (desc : VertexBufferDescriptor) : Int :=
  src + index * desc.stride

/-- The call `memset(dst, 0, n * sizeof(float))` on the scratch block: cells
`k, k+1, ..., k+n-1` are set to zero.  A scratch cell is `none` while it is
uninitialised. -/
def memsetZero {α : Type} [Zero α] :
    Nat → Nat → List (Option α) → Option (List (Option α))
  | 0, _, dst => some dst
  | n + 1, k, dst =>
    if k < dst.length then memsetZero n (k + 1) (dst.set k (some 0)) else none

/-- The function `clear`: `memset(dst, 0, desc.length*sizeof(float))`.  A negative
length converts to a huge `size_t` and overruns the block. -/
def clear {α : Type} [Zero α] (dst : List (Option α)) (desc : VertexBufferDescriptor) :
    Option (List (Option α)) :=
  if desc.length < 0 then none else memsetZero desc.length.toNat 0 dst

/-- The loop of `addWithWeight`, `n` iterations left, at channel `k`:
`dst[k] += src[k] * weight`.  An uninitialised scratch cell stays
uninitialised. -/
def addWithWeightLoop {α : Type} [Add α] [Mul α] (src : Ptr α) (weight : α) :
    Nat → Nat → List (Option α) → Option (List (Option α))
  | 0, _, dst => some dst
  | n + 1, k, dst =>
    match src.get k, dst[k]? with
    | some s, some d => addWithWeightLoop src weight n (k + 1) (dst.set k (d.map (· + s * weight)))
    | _, _ => none

/-- The function `addWithWeight`. -/
def addWithWeight {α : Type} [Add α] [Mul α] (dst : List (Option α)) (src : Ptr α)
    (srcIndex : Int) (weight : α) (desc : VertexBufferDescriptor) :
    Option (List (Option α)) :=
  let src : Ptr α := ⟨src.mem, elementAtIndex src.pos srcIndex desc⟩
  addWithWeightLoop src weight desc.length.toNat 0 dst

/-- The call `memcpy(dst, src, n * sizeof(float))` from the scratch block into
the destination buffer `mem` at position `dst`, `n` floats left, at channel `k`.
Copying an uninitialised cell fails. -/
def memcpyLoop {α : Type} (src : List (Option α)) (dst : Int) :
    Nat → Nat → List α → Option (List α)
  | 0, _, mem => some mem
  | n + 1, k, mem =>
    match src[k]? with
    | some (some v) =>
      match store mem (dst + k) v with
      | some mem1 => memcpyLoop src dst n (k + 1) mem1
      | none => none
    | _ => none

/-- The function `copy`: `dst = elementAtIndex(dst, dstIndex, desc)` and then
`memcpy(dst, src, desc.length*sizeof(float))`; `mem` is the destination
buffer. -/
def copy {α : Type} (mem : List α) (dst : Int) (dstIndex : Int) (src : List (Option α))
    (desc : VertexBufferDescriptor) : Option (List α) :=
  if desc.length < 0 then none
  else memcpyLoop src (elementAtIndex dst dstIndex desc) desc.length.toNat 0 mem

/-- The class `TBBStencilKernel`: two descriptors and six pointers.  The
destination pointer is kept as a position: the destination buffer is the state
the kernel works on. -/
structure TBBStencilKernel (α : Type) where
  _srcDesc : VertexBufferDescriptor
  _dstDesc : VertexBufferDescriptor
  _vertexSrc : Ptr α
  _vertexDst : Int
  _sizes : Ptr Int
  _offsets : Ptr Int
  _indices : Ptr Int
  _weights : Ptr α

/-- The inner loop of the generic path, `n` iterations left:
`addWithWeight(result, _vertexSrc, *indices++, *weights++, _srcDesc)`.
Returns the advanced pointers and the scratch block. -/
def termLoop {α : Type} [Add α] [Mul α] (K : TBBStencilKernel α) :
    Nat → Ptr Int → Ptr α → List (Option α) → Option (Ptr Int × Ptr α × List (Option α))
  | 0, indices, weights, result => some (indices, weights, result)
  | n + 1, indices, weights, result =>
    match indices.get 0, weights.get 0 with
    | some index, some weight =>
      match addWithWeight result K._vertexSrc index weight K._srcDesc with
      | some result1 => termLoop K n (indices.add 1) (weights.add 1) result1
      | none => none
    | _, _ => none

/-- The outer loop of the generic path, `n` rows left, at row `i`:
`for (i = r.begin(); i < r.end(); ++i, ++sizes)`.  `mem` is the destination
buffer. -/
def rowLoop {α : Type} [Zero α] [Add α] [Mul α] (K : TBBStencilKernel α) :
    Nat → Int → Ptr Int → Ptr Int → Ptr α → List (Option α) → List α → Option (List α)
  | 0, _, _, _, _, _, mem => some mem
  | n + 1, i, sizes, indices, weights, result, mem =>
    match clear result K._dstDesc, sizes.get 0 with
    | some result1, some size =>
      match termLoop K size.toNat indices weights result1 with
      | some (indices1, weights1, result2) =>
        match copy mem K._vertexDst i result2 K._dstDesc with
        | some mem1 => rowLoop K n (i + 1) (sizes.add 1) indices1 weights1 result2 mem1
        | none => none
      | none => none
    | _, _ => none

/-- The generic branch of `TBBStencilKernel::operator()` on the range
`[rbegin, rend)`. -/
def genericPath {α : Type} [Zero α] [Add α] [Mul α] (K : TBBStencilKernel α)
    (rbegin rend : Int) (mem : List α) : Option (List α) :=
  match (if rbegin > 0 then K._offsets.get rbegin else some 0) with
  | none => none
  | some shift =>
    let sizes := if rbegin > 0 then K._sizes.add rbegin else K._sizes
    let indices := if rbegin > 0 then K._indices.add shift else K._indices
    let weights := if rbegin > 0 then K._weights.add shift else K._weights
    -- float * result = (float*)alloca(_srcDesc.length * sizeof(float));
    -- a negative length converts to a huge size_t
    if K._srcDesc.length < 0 then none
    else
      let result : List (Option α) := List.replicate K._srcDesc.length.toNat none
      rowLoop K (rend - rbegin).toNat rbegin sizes indices weights result mem

/-- The row store of the fixed-width primitive: `numElems` floats of `result`
written at position `dst` of the destination buffer. -/
def storeRow {α : Type} : List α → Int → List α → Option (List α)
  | [], _, mem => some mem
  | v :: vs, dst, mem =>
    match store mem dst v with
    | some mem1 => storeRow vs (dst + 1) mem1
    | none => none

/-- The row read of the fixed-width primitive: the `n` floats at position `src`,
`src + 1`, ... of the source buffer. -/
def loadRow {α : Type} (src : Ptr α) : Nat → Int → Option (List α)
  | 0, _ => some []
  | n + 1, k =>
    match src.get k, loadRow src n (k + 1) with
    | some v, some vs => some (v :: vs)
    | _, _ => none

/-- The term loop of the fixed-width primitive: for each of the `n` terms,
`result[k] += src[index * numElems + k] * weight` on all `numElems` channels. -/
def fixedTermLoop {α : Type} [Add α] [Mul α] (numElems : Nat) (vertexSrc : Ptr α) :
    Nat → Ptr Int → Ptr α → List α → Option (Ptr Int × Ptr α × List α)
  | 0, indices, weights, result => some (indices, weights, result)
  | n + 1, indices, weights, result =>
    match indices.get 0, weights.get 0 with
    | some index, some weight =>
      match loadRow vertexSrc numElems (index * numElems) with
      | some row =>
        fixedTermLoop numElems vertexSrc n (indices.add 1) (weights.add 1)
          (List.zipWith (fun d s => d + s * weight) result row)
      | none => none
    | _, _ => none

/-- The row loop of the fixed-width primitive, `n` rows left, at row `i`; the
term count of row `i` is `sizes[i]`. -/
def fixedRowLoop {α : Type} [Zero α] [Add α] [Mul α] (numElems : Nat) (vertexSrc : Ptr α)
    (vertexDst : Int) (sizes : Ptr Int) :
    Nat → Int → Ptr Int → Ptr α → List α → Option (List α)
  | 0, _, _, _, mem => some mem
  | n + 1, i, indices, weights, mem =>
    match sizes.get i with
    | some size =>
      match fixedTermLoop numElems vertexSrc size.toNat indices weights
          (List.replicate numElems 0) with
      | some (indices1, weights1, result) =>
        match storeRow result (vertexDst + i * numElems) mem with
        | some mem1 =>
          fixedRowLoop numElems vertexSrc vertexDst sizes n (i + 1) indices1 weights1 mem1
        | none => none
      | none => none
    | none => none

/-- Modelled from the spec: the fixed-width accumulation primitive
`ComputeStencilKernel<numElems>`, declared in `cpuKernel.h`, which is not among
the sources.  Specification, section 4.3: given the source and destination
buffers, `sizes`, and the term window already restricted to `[begin, end)`, it
computes per-row weighted sums with a statically known channel count, in the
operation order of the generic path.  Rows are `numElems` floats wide and
tightly packed; `sizes` is indexed by the row number, `indices` and `weights`
are read sequentially from the pointers given. -/
def ComputeStencilKernel {α : Type} [Zero α] [Add α] [Mul α] (numElems : Nat)
    (vertexSrc : Ptr α) (vertexDst : Int) (sizes : Ptr Int) (indices : Ptr Int)
    (weights : Ptr α) (start end_ : Int) (mem : List α) : Option (List α) :=
  fixedRowLoop numElems vertexSrc vertexDst sizes (end_ - start).toNat start indices weights mem

/-- The three branches of `TBBStencilKernel::operator()`. -/
inductive Path where
  | fixed4
  | fixed8
  | generic
deriving DecidableEq, Repr

/-- The branch conditions of `TBBStencilKernel::operator()`, in the order of
the source. -/
def selectPath (srcDesc dstDesc : VertexBufferDescriptor) : Path :=
  if srcDesc.length = 4 ∧ srcDesc.stride = 4 ∧ dstDesc.stride = 4 then Path.fixed4
  else if srcDesc.length = 8 ∧ srcDesc.stride = 4 ∧ dstDesc.stride = 4 then Path.fixed8
  else Path.generic

/-- The fixed-width branches of `TBBStencilKernel::operator()`, at width
`numElems`: `int offset = _offsets[r.begin()]` and then the call
`ComputeStencilKernel<numElems>(_vertexSrc, _vertexDst, _sizes, _indices+offset,
_weights+offset, r.begin(), r.end())`. -/
def fixedPath {α : Type} [Zero α] [Add α] [Mul α] (numElems : Nat) (K : TBBStencilKernel α)
    (rbegin rend : Int) (mem : List α) : Option (List α) :=
  match K._offsets.get rbegin with
  | some offset =>
    ComputeStencilKernel numElems K._vertexSrc K._vertexDst K._sizes (K._indices.add offset)
      (K._weights.add offset) rbegin rend mem
  | none => none

/-- The method `TBBStencilKernel::operator()` on the range `r = [r.1, r.2)`;
`mem` is the destination buffer. -/
def TBBStencilKernel.operator {α : Type} [Zero α] [Add α] [Mul α] (K : TBBStencilKernel α)
    (r : Int × Int) (mem : List α) : Option (List α) :=
  match selectPath K._srcDesc K._dstDesc with
  | Path.fixed4 => fixedPath 4 K r.1 r.2 mem
  | Path.fixed8 => fixedPath 8 K r.1 r.2 mem
  | Path.generic => genericPath K r.1 r.2 mem

/-- The body calls of a parallel loop: the body is run to completion on each
sub-range of `tasks`, in the order of the list. -/
def runTasks {σ : Type} (body : Int × Int → σ → Option σ) :
    List (Int × Int) → σ → Option σ
  | [], s => some s
  | r :: rs, s =>
    match body r s with
    | some s1 => runTasks body rs s1
    | none => none

/-- Modelled from the spec: `tbb::parallel_for(range, body)` on
`range = blocked_range(rbegin, rend, grain)`, the parallel-for primitive of the
TBB library.  Specification, sections 4.1 and 5: the range is split into
sub-ranges, each run to completion by the body, unordered, with no shared
mutable state; nothing runs on an empty range.  `tasks` lists the sub-ranges in
the order in which the body ran on them; the state is the destination buffer.
The grain size restricts which sub-ranges the scheduler may form (a range of at
most `grain` rows is run as one sub-range) and has no other effect. -/
def parallel_for {σ : Type} (rbegin rend _grain : Int) (tasks : List (Int × Int))
    (body : Int × Int → σ → Option σ) (s : σ) : Option σ :=
  if rbegin < rend then runTasks body tasks s else some s

/-- The function `TbbEvalStencils`.  `tasks` is the outcome of the scheduler:
the sub-ranges of `blocked_range(start, end, grain_size)` in the order in which
they were run. -/
def TbbEvalStencils {α : Type} [Zero α] [Add α] [Mul α] (src : List α)
    (srcDesc : VertexBufferDescriptor) (dst : List α) (dstDesc : VertexBufferDescriptor)
    (sizes offsets indices : List Int) (weights : List α) (start end_ : Int)
    (tasks : List (Int × Int)) : Option (List α) :=
  match (if start > 0 then load offsets start else some 0) with
  | none => none
  | some shift =>
    let sizesP : Ptr Int := if start > 0 then ⟨sizes, start⟩ else ⟨sizes, 0⟩
    let indicesP : Ptr Int := if start > 0 then ⟨indices, shift⟩ else ⟨indices, 0⟩
    let weightsP : Ptr α := if start > 0 then ⟨weights, shift⟩ else ⟨weights, 0⟩
    let kernel : TBBStencilKernel α :=
      ⟨srcDesc, dstDesc, ⟨src, srcDesc.offset⟩, dstDesc.offset, sizesP, ⟨offsets, 0⟩,
        indicesP, weightsP⟩
    -- tbb::blocked_range<int> range(start, end, grain_size);
    parallel_for start end_ grain_size tasks kernel.operator dst

/-- A split of `[b, e)` into contiguous non-empty sub-ranges, listed in
increasing order. -/
def IsSplit : Int → Int → List (Int × Int) → Prop
  | b, e, [] => b = e
  | b, e, r :: rs => r.1 = b ∧ r.1 < r.2 ∧ IsSplit r.2 e rs

instance IsSplit.decidable : ∀ (b e : Int) (l : List (Int × Int)), Decidable (IsSplit b e l)
  | b, e, [] => by unfold IsSplit; infer_instance
  | b, e, r :: rs => by
    unfold IsSplit
    have := IsSplit.decidable r.2 e rs
    infer_instance

/-- The outcomes of the scheduler on `[start, end)`: the sub-ranges of a split,
run in any order.  A worker writes only the destination rows of its own
sub-range and reads nothing of the destination, so workers that run
concurrently are represented by running the sub-ranges one after the other. -/
def IsSchedule (start end_ : Int) (tasks : List (Int × Int)) : Prop :=
  ∃ split, IsSplit start end_ split ∧ List.Perm tasks split

/-! ## Specification-level functions -/

/-- Channel `k` of source row `index`: the float at position
`index * desc.stride + k` from the pointer `src` (zero outside the buffer). -/
def sourceRow {α : Type} [Zero α] (src : Ptr α) (desc : VertexBufferDescriptor)
    (index : Int) (k : Nat) : α :=
  (src.get (index * desc.stride + k)).getD 0

/-- The weighted sum, in term order, of channel `k` over the `n` terms found at
positions `j, j+1, ...` from the pointers `indices` and `weights`, added to
`d`: `((d + s₀ * w₀) + s₁ * w₁) + ...`. -/
def accum {α : Type} [Zero α] [Add α] [Mul α] (src : Ptr α) (desc : VertexBufferDescriptor)
    (indices : Ptr Int) (weights : Ptr α) (k : Nat) : Nat → Int → α → α
  | 0, _, d => d
  | n + 1, j, d =>
    accum src desc indices weights k n (j + 1)
      (d + sourceRow src desc ((indices.get j).getD 0) k * (weights.get j).getD 0)

/-- The number of terms the generic loop has consumed before it reaches the
`m`-th row after the one `sizes` points to. -/
def termsBefore (sizes : Ptr Int) : Nat → Int
  | 0 => 0
  | m + 1 => termsBefore sizes m + (((sizes.get m).getD 0).toNat : Int)

/-- The kernel object that `TbbEvalStencils` builds when `start = 0`: no pointer
of the table is shifted. -/
def startKernel {α : Type} (src : List α) (srcDesc dstDesc : VertexBufferDescriptor)
    (sizes offsets indices : List Int) (weights : List α) : TBBStencilKernel α :=
  ⟨srcDesc, dstDesc, ⟨src, srcDesc.offset⟩, dstDesc.offset, ⟨sizes, 0⟩, ⟨offsets, 0⟩,
    ⟨indices, 0⟩, ⟨weights, 0⟩⟩

/-- Position of channel `k` of row `i` of a buffer laid out by `desc`:
`i * stride + offset + k`. -/
def rowPos (desc : VertexBufferDescriptor) (i : Int) (k : Nat) : Int :=
  i * desc.stride + desc.offset + k

/-- Row `i` of a buffer laid out by `desc` lies inside the buffer. -/
def ValidRow {α : Type} (buf : List α) (desc : VertexBufferDescriptor) (i : Int) : Prop :=
  0 ≤ i * desc.stride + desc.offset ∧ i * desc.stride + desc.offset + desc.length ≤ buf.length

instance ValidRow.decidable {α : Type} (buf : List α) (desc : VertexBufferDescriptor)
    (i : Int) : Decidable (ValidRow buf desc i) := by
  unfold ValidRow; infer_instance

/-- The offsets of the first `n` stencils are the running sums of the sizes:
`offsets[0] = 0` and `offsets[i+1] = offsets[i] + sizes[i]`; term counts are
not negative. -/
def RunningSums (sizes offsets : List Int) (n : Nat) : Prop :=
  offsets.getD 0 0 = 0 ∧
  (∀ i, i < n → 0 ≤ sizes.getD i 0) ∧
  ∀ i, i < n → i + 1 < n → offsets.getD (i + 1) 0 = offsets.getD i 0 + sizes.getD i 0

instance RunningSums.decidable (sizes offsets : List Int) (n : Nat) :
    Decidable (RunningSums sizes offsets n) := by
  unfold RunningSums; infer_instance

/-- The offsets of the first `n` stencils are monotonic and leave room for the
terms of each stencil, unused gaps between consecutive stencils allowed:
`0 ≤ offsets[0]` and `offsets[i] + sizes[i] ≤ offsets[i+1]`; term counts are
not negative. -/
def GappedOffsets (sizes offsets : List Int) (n : Nat) : Prop :=
  0 ≤ offsets.getD 0 0 ∧
  (∀ i, i < n → 0 ≤ sizes.getD i 0) ∧
  ∀ i, i < n → i + 1 < n → offsets.getD i 0 + sizes.getD i 0 ≤ offsets.getD (i + 1) 0

instance GappedOffsets.decidable (sizes offsets : List Int) (n : Nat) :
    Decidable (GappedOffsets sizes offsets n) := by
  unfold GappedOffsets; infer_instance

/-- The shift the worker applies to `indices` and `weights` on a sub-range that
begins at row `b`, in a call with `start = 0`: `offsets[b]` when `b > 0`, none
when `b = 0`. -/
def seqShift (offsets : List Int) (b : Nat) : Int :=
  if 0 < b then offsets.getD b 0 else 0

/-- The position in `indices` and `weights` of the first term that the generic
loop reads for row `b + m`, on a sub-range that begins at row `b`, in a call
with `start = 0`: the shift of the sub-range plus the sizes of the rows
`b, ..., b + m - 1`. -/
def seqTermPos (sizes offsets : List Int) (b m : Nat) : Int :=
  seqShift offsets b + termsBefore ⟨sizes, (b : Int)⟩ m

/-- A table of `n` stencils over the source buffer `src`: `sizes` has `n`
entries and `offsets` at least `n`; term counts are not negative; the terms of
every stencil lie inside `indices` and `weights`; every index is a valid source
row. -/
def ValidTable {α : Type} (src : List α) (srcDesc : VertexBufferDescriptor)
    (sizes offsets indices : List Int) (weights : List α) (n : Nat) : Prop :=
  sizes.length = n ∧ n ≤ offsets.length ∧
  (∀ i, i < n → 0 ≤ sizes.getD i 0 ∧ 0 ≤ offsets.getD i 0 ∧
    offsets.getD i 0 + sizes.getD i 0 ≤ indices.length ∧
    offsets.getD i 0 + sizes.getD i 0 ≤ weights.length) ∧
  ∀ idx ∈ indices, ValidRow src srcDesc idx

instance ValidTable.decidable {α : Type} (src : List α) (srcDesc : VertexBufferDescriptor)
    (sizes offsets indices : List Int) (weights : List α) (n : Nat) :
    Decidable (ValidTable src srcDesc sizes offsets indices weights n) := by
  unfold ValidTable; infer_instance

/-- Channel `k` of destination row `i` as the generic path computes it from a
table whose offsets locate the terms: the `sizes[i]` terms at positions
`offsets[i], offsets[i]+1, ...` of `indices` and `weights`, added in term order
starting from zero. -/
def stencilValue {α : Type} [Zero α] [Add α] [Mul α] (src : List α)
    (srcDesc : VertexBufferDescriptor) (sizes offsets indices : List Int) (weights : List α)
    (i : Nat) (k : Nat) : α :=
  accum (⟨src, srcDesc.offset⟩ : Ptr α) srcDesc ⟨indices, 0⟩ ⟨weights, 0⟩ k
    (sizes.getD i 0).toNat (offsets.getD i 0) 0


/-- The `n` terms at positions `j0, j0+1, ...` from the pointers `indices` and
`weights` can be read, and each index read names a source row that lies inside
the source buffer. -/
def TermsReadable {α : Type} (src : Ptr α) (desc : VertexBufferDescriptor)
    (indices : Ptr Int) (weights : Ptr α) (j0 : Int) (n : Nat) : Prop :=
  ∀ j : Nat, j < n → ∃ idx wt, indices.get (j0 + j) = some idx ∧ weights.get (j0 + j) = some wt ∧
    ∀ q : Nat, q < desc.length.toNat → ∃ s, src.get (idx * desc.stride + q) = some s

/-- The weight at position `t` of the weights array. -/
def weightAt {α : Type} [Zero α] (weights : List α) (t : Int) : α := (load weights t).getD 0

/-- The index at position `t` of the indices array. -/
def indexAt (indices : List Int) (t : Int) : Int := (load indices t).getD 0

/-- Channel `k` of row `r` of the source buffer: the float at `r * stride + offset + k`. -/
def sourceChannel {α : Type} [Zero α] (src : List α) (srcDesc : VertexBufferDescriptor)
    (r : Int) (k : Nat) : α :=
  (load src (rowPos srcDesc r k)).getD 0

/-- The weighted sum of stencil `i` on channel `k`, with the terms located by
`offsets`: the sum over `j < sizes[i]` of
`weights[offsets[i]+j] * sourceRow(indices[offsets[i]+j])[k]`. -/
def weightedSum {α : Type} [Zero α] [Add α] [Mul α] (src : List α)
    (srcDesc : VertexBufferDescriptor) (sizes offsets indices : List Int) (weights : List α)
    (i : Nat) (k : Nat) : α :=
  ((List.range (sizes.getD i 0).toNat).map fun j : Nat =>
    weightAt weights (offsets.getD i 0 + j)
      * sourceChannel src srcDesc (indexAt indices (offsets.getD i 0 + j)) k).sum

/-- The kernel object that `TbbEvalStencils` builds for a call with first row
`start` (the pointer shifts of the dispatcher and the constructor call): for
`start > 0`, `sizes` is advanced by `start` and `indices`, `weights` by
`offsets[start]`. -/
def dispatchKernel {α : Type} (src : List α) (srcDesc dstDesc : VertexBufferDescriptor)
    (sizes offsets indices : List Int) (weights : List α) (start : Int) :
    Option (TBBStencilKernel α) :=
  match (if start > 0 then load offsets start else some 0) with
  | none => none
  | some shift =>
    some ⟨srcDesc, dstDesc, ⟨src, srcDesc.offset⟩, dstDesc.offset,
      if start > 0 then ⟨sizes, start⟩ else ⟨sizes, 0⟩, ⟨offsets, 0⟩,
      if start > 0 then ⟨indices, shift⟩ else ⟨indices, 0⟩,
      if start > 0 then ⟨weights, shift⟩ else ⟨weights, 0⟩⟩

/-- The local pointers `sizes`, `indices`, `weights` of the generic branch of
`TBBStencilKernel::operator()` when it enters its row loop on a sub-range that
begins at `rbegin`: for `rbegin > 0` the kernel's `_sizes` advanced by `rbegin`
and its `_indices`, `_weights` advanced by `_offsets[rbegin]`. -/
def genericPointers {α : Type} (K : TBBStencilKernel α) (rbegin : Int) :
    Option (Ptr Int × Ptr Int × Ptr α) :=
  match (if rbegin > 0 then K._offsets.get rbegin else some 0) with
  | none => none
  | some shift =>
    some (if rbegin > 0 then K._sizes.add rbegin else K._sizes,
      if rbegin > 0 then K._indices.add shift else K._indices,
      if rbegin > 0 then K._weights.add shift else K._weights)

/-- The sum of stencil `i` on channel `k` with the terms added in stencil
order, starting from zero:
`((0 + s₀ * w₀) + s₁ * w₁) + ...` where `wⱼ = weights[offsets[i]+j]` and `sⱼ` is
channel `k` of source row `indices[offsets[i]+j]`, for `j < sizes[i]`. -/
def orderedSum {α : Type} [Zero α] [Add α] [Mul α] (src : List α)
    (srcDesc : VertexBufferDescriptor) (sizes offsets indices : List Int) (weights : List α)
    (i : Nat) (k : Nat) : α :=
  (List.range (sizes.getD i 0).toNat).foldl
    (fun (acc : α) (j : Nat) =>
      acc + sourceChannel src srcDesc (indexAt indices (offsets.getD i 0 + (j : Int))) k
        * weightAt weights (offsets.getD i 0 + (j : Int))) 0

/-! ## Memory lemmas -/

theorem load_natCast {β : Type} (mem : List β) (n : Nat) : load mem (n : Int) = mem[n]? := by
  simp [load]

theorem load_eq_some {β : Type} {mem : List β} {p : Int} {v : β} (h : load mem p = some v) :
    0 ≤ p ∧ p < mem.length := by
  unfold load at h
  split at h
  · simp at h
  · have := (List.getElem?_eq_some.1 h).1
    omega

theorem load_isSome {β : Type} (mem : List β) (p : Int) (h0 : 0 ≤ p) (h1 : p < mem.length) :
    ∃ v, load mem p = some v := by
  unfold load
  rw [if_neg (by omega)]
  have : p.toNat < mem.length := by omega
  exact ⟨mem[p.toNat], List.getElem?_eq_getElem this⟩

theorem load_congr_length {β : Type} {mem mem1 : List β} (h : ∀ p, load mem1 p = load mem p) :
    mem1.length = mem.length := by
  rcases Nat.lt_trichotomy mem1.length mem.length with h1 | h1 | h1
  · obtain ⟨v, hv⟩ := load_isSome mem (mem1.length : Int) (by omega) (by omega)
    rw [← h] at hv
    have := (load_eq_some hv).2
    omega
  · exact h1
  · obtain ⟨v, hv⟩ := load_isSome mem1 (mem.length : Int) (by omega) (by omega)
    rw [h] at hv
    have := (load_eq_some hv).2
    omega

theorem load_ext {β : Type} {mem mem1 : List β} (h : ∀ p, load mem1 p = load mem p) :
    mem1 = mem := by
  apply List.ext_getElem?
  intro n
  have := h (n : Int)
  rwa [load_natCast, load_natCast] at this

theorem store_some {β : Type} {mem m : List β} {p : Int} {v : β} (h : store mem p v = some m) :
    0 ≤ p ∧ p < mem.length ∧ m = mem.set p.toNat v := by
  unfold store at h
  split at h
  · rename_i hp
    simp at h
    refine ⟨hp.1, by omega, h.symm⟩
  · simp at h

theorem store_length {β : Type} {mem m : List β} {p : Int} {v : β} (h : store mem p v = some m) :
    m.length = mem.length := by
  rw [(store_some h).2.2]; simp

theorem load_store {β : Type} {mem m : List β} {p : Int} {v : β} (h : store mem p v = some m)
    (q : Int) : load m q = if q = p then some v else load mem q := by
  obtain ⟨h0, h1, rfl⟩ := store_some h
  unfold load
  by_cases hq : q < 0
  · have : q ≠ p := by omega
    simp [hq, this]
  · simp only [hq, if_false]
    rw [List.getElem?_set]
    by_cases hqp : q = p
    · subst hqp
      have : q.toNat < mem.length := by omega
      simp [this]
    · have : ¬ p.toNat = q.toNat := by omega
      simp [hqp, this]

theorem store_isSome {β : Type} (mem : List β) (p : Int) (v : β) (h0 : 0 ≤ p)
    (h1 : p < mem.length) : ∃ m, store mem p v = some m := by
  unfold store
  rw [if_pos ⟨h0, by omega⟩]
  exact ⟨_, rfl⟩

theorem memsetZero_spec {α : Type} [Zero α] :
    ∀ (n k : Nat) (dst dst1 : List (Option α)), memsetZero n k dst = some dst1 →
      dst1.length = dst.length ∧ (n = 0 ∨ k + n ≤ dst.length) ∧
      ∀ q, dst1[q]? = if k ≤ q ∧ q < k + n then some (some 0) else dst[q]? := by
  intro n
  induction n with
  | zero =>
    intro k dst dst1 h
    simp [memsetZero] at h
    subst h
    refine ⟨rfl, Or.inl rfl, fun q => ?_⟩
    have : ¬ (k ≤ q ∧ q < k + 0) := by omega
    rw [if_neg this]
  | succ n ih =>
    intro k dst dst1 h
    simp only [memsetZero] at h
    split at h
    · rename_i hk
      obtain ⟨hl, hb, hq⟩ := ih (k + 1) _ _ h
      simp only [List.length_set] at hl hb
      refine ⟨hl, Or.inr (by omega), fun q => ?_⟩
      rw [hq q, List.getElem?_set]
      by_cases h1 : k + 1 ≤ q ∧ q < k + 1 + n
      · have : k ≤ q ∧ q < k + (n + 1) := by omega
        simp [h1, this]
      · by_cases h2 : k = q
        · subst h2
          simp [hk]
        · have : ¬ (k ≤ q ∧ q < k + (n + 1)) := by omega
          simp [h1, h2, this]
    · simp at h

theorem memsetZero_isSome {α : Type} [Zero α] :
    ∀ (n k : Nat) (dst : List (Option α)), k + n ≤ dst.length →
      ∃ dst1, memsetZero n k dst = some dst1 := by
  intro n
  induction n with
  | zero => intro k dst _; exact ⟨dst, rfl⟩
  | succ n ih =>
    intro k dst h
    simp only [memsetZero]
    rw [if_pos (by omega)]
    apply ih
    simp only [List.length_set]
    omega

theorem clear_spec {α : Type} [Zero α] {dst dst1 : List (Option α)}
    {desc : VertexBufferDescriptor} (h : clear dst desc = some dst1) :
    0 ≤ desc.length ∧ dst1.length = dst.length ∧ desc.length.toNat ≤ dst.length ∧
      ∀ q, dst1[q]? = if q < desc.length.toNat then some (some 0) else dst[q]? := by
  unfold clear at h
  split at h
  · simp at h
  · obtain ⟨hl, hb, hq⟩ := memsetZero_spec _ _ _ _ h
    refine ⟨by omega, hl, by omega, fun q => ?_⟩
    rw [hq q]
    simp

theorem clear_isSome {α : Type} [Zero α] (dst : List (Option α)) (desc : VertexBufferDescriptor)
    (h0 : 0 ≤ desc.length) (h1 : desc.length.toNat ≤ dst.length) :
    ∃ dst1, clear dst desc = some dst1 := by
  unfold clear
  rw [if_neg (by omega)]
  exact memsetZero_isSome _ _ _ (by omega)

theorem addWithWeightLoop_spec {α : Type} [Zero α] [Add α] [Mul α] (src : Ptr α) (w : α) :
    ∀ (n k : Nat) (dst dst1 : List (Option α)), addWithWeightLoop src w n k dst = some dst1 →
      dst1.length = dst.length ∧
      (∀ q : Nat, k ≤ q → q < k + n → (∃ s, src.get q = some s) ∧ q < dst.length) ∧
      ∀ q : Nat, dst1[q]? = if k ≤ q ∧ q < k + n then
          (dst[q]?).map (Option.map (· + (src.get q).getD 0 * w)) else dst[q]? := by
  intro n
  induction n with
  | zero =>
    intro k dst dst1 h
    simp [addWithWeightLoop] at h
    subst h
    refine ⟨rfl, fun q h1 h2 => by omega, fun q => ?_⟩
    have : ¬ (k ≤ q ∧ q < k + 0) := by omega
    rw [if_neg this]
  | succ n ih =>
    intro k dst dst1 h
    simp only [addWithWeightLoop] at h
    split at h
    · rename_i s d hs hd
      obtain ⟨hl, hb, hq⟩ := ih (k + 1) _ _ h
      simp only [List.length_set] at hl hb
      have hk : k < dst.length := (List.getElem?_eq_some.1 hd).1
      refine ⟨hl, fun q h1 h2 => ?_, fun q => ?_⟩
      · by_cases hqk : q = k
        · subst hqk
          exact ⟨⟨s, hs⟩, hk⟩
        · exact hb q (by omega) (by omega)
      · rw [hq q, List.getElem?_set]
        by_cases h1 : k + 1 ≤ q ∧ q < k + 1 + n
        · have h2 : k ≤ q ∧ q < k + (n + 1) := by omega
          have h3 : ¬ k = q := by omega
          simp [h1, h2, h3]
        · by_cases h2 : k = q
          · subst h2
            simp [hk, hs, hd]
          · have : ¬ (k ≤ q ∧ q < k + (n + 1)) := by omega
            simp [h1, h2, this]
    · simp at h

theorem addWithWeightLoop_isSome {α : Type} [Add α] [Mul α] (src : Ptr α) (w : α) :
    ∀ (n k : Nat) (dst : List (Option α)),
      (∀ q : Nat, k ≤ q → q < k + n → ∃ s, src.get q = some s) → k + n ≤ dst.length →
      ∃ dst1, addWithWeightLoop src w n k dst = some dst1 := by
  intro n
  induction n with
  | zero => intro k dst _ _; exact ⟨dst, rfl⟩
  | succ n ih =>
    intro k dst hs hl
    obtain ⟨s, hs0⟩ := hs k (by omega) (by omega)
    have hk : k < dst.length := by omega
    simp only [addWithWeightLoop, hs0, List.getElem?_eq_getElem hk]
    apply ih
    · intro q h1 h2
      exact hs q (by omega) (by omega)
    · simp only [List.length_set]
      omega

theorem addWithWeight_spec {α : Type} [Zero α] [Add α] [Mul α] {dst dst1 : List (Option α)}
    {src : Ptr α} {index : Int} {w : α} {desc : VertexBufferDescriptor}
    (h : addWithWeight dst src index w desc = some dst1) :
    dst1.length = dst.length ∧
    (∀ q : Nat, q < desc.length.toNat →
      (∃ s, src.get (index * desc.stride + q) = some s) ∧ q < dst.length) ∧
    ∀ q : Nat, dst1[q]? = if q < desc.length.toNat then
        (dst[q]?).map (Option.map (· + sourceRow src desc index q * w)) else dst[q]? := by
  unfold addWithWeight at h
  obtain ⟨hl, hb, hq⟩ := addWithWeightLoop_spec _ _ _ _ _ _ h
  have key : ∀ q : Nat, (⟨src.mem, elementAtIndex src.pos index desc⟩ : Ptr α).get q
      = src.get (index * desc.stride + q) := by
    intro q
    simp only [Ptr.get, elementAtIndex, add_assoc]
  refine ⟨hl, fun q hq1 => ?_, fun q => ?_⟩
  · have := hb q (by omega) (by omega)
    rwa [key] at this
  · rw [hq q, key]
    simp [sourceRow]

theorem addWithWeight_isSome {α : Type} [Add α] [Mul α] (dst : List (Option α))
    (src : Ptr α) (index : Int) (w : α) (desc : VertexBufferDescriptor)
    (hs : ∀ q : Nat, q < desc.length.toNat → ∃ s, src.get (index * desc.stride + q) = some s)
    (hl : desc.length.toNat ≤ dst.length) :
    ∃ dst1, addWithWeight dst src index w desc = some dst1 := by
  unfold addWithWeight
  apply addWithWeightLoop_isSome
  · intro q _ h2
    obtain ⟨s, hs1⟩ := hs q (by omega)
    refine ⟨s, ?_⟩
    rw [← hs1]
    simp only [Ptr.get, elementAtIndex, add_assoc]
  · omega

theorem memcpyLoop_spec {α : Type} (src : List (Option α)) (dst : Int) :
    ∀ (n k : Nat) (mem mem1 : List α), memcpyLoop src dst n k mem = some mem1 →
      mem1.length = mem.length ∧
      (∀ q : Nat, k ≤ q → q < k + n →
        0 ≤ dst + q ∧ dst + q < mem.length ∧ ∃ v, src[q]? = some (some v) ∧
          load mem1 (dst + q) = some v) ∧
      ∀ p : Int, (∀ q : Nat, k ≤ q → q < k + n → p ≠ dst + q) → load mem1 p = load mem p := by
  intro n
  induction n with
  | zero =>
    intro k mem mem1 h
    simp [memcpyLoop] at h
    subst h
    exact ⟨rfl, fun q h1 h2 => by omega, fun p _ => rfl⟩
  | succ n ih =>
    intro k mem mem1 h
    simp only [memcpyLoop] at h
    split at h
    · rename_i v hv
      split at h
      · rename_i mem2 hst
        obtain ⟨hl, hb, hf⟩ := ih (k + 1) _ _ h
        have hl2 := store_length hst
        obtain ⟨hp0, hp1, _⟩ := store_some hst
        refine ⟨by omega, fun q h1 h2 => ?_, fun p hp => ?_⟩
        · by_cases hqk : q = k
          · subst hqk
            refine ⟨hp0, hp1, v, hv, ?_⟩
            rw [hf _ (fun q1 h3 _ => by omega), load_store hst]
            simp
          · obtain ⟨a, b, c⟩ := hb q (by omega) (by omega)
            exact ⟨a, by omega, c⟩
        · rw [hf p (fun q h1 h2 => hp q (by omega) (by omega)), load_store hst]
          have := hp k (by omega) (by omega)
          simp [this]
      · simp at h
    · simp at h

theorem memcpyLoop_isSome {α : Type} (src : List (Option α)) (dst : Int) :
    ∀ (n k : Nat) (mem : List α),
      (∀ q : Nat, k ≤ q → q < k + n →
        0 ≤ dst + q ∧ dst + q < mem.length ∧ ∃ v, src[q]? = some (some v)) →
      ∃ mem1, memcpyLoop src dst n k mem = some mem1 := by
  intro n
  induction n with
  | zero => intro k mem _; exact ⟨mem, rfl⟩
  | succ n ih =>
    intro k mem hb
    obtain ⟨h0, h1, v, hv⟩ := hb k (by omega) (by omega)
    obtain ⟨mem2, hst⟩ := store_isSome mem (dst + k) v h0 h1
    simp only [memcpyLoop, hv, hst]
    apply ih
    intro q h2 h3
    have := hb q (by omega) (by omega)
    rw [store_length hst]
    exact this

theorem copy_spec {α : Type} {mem mem1 : List α} {dst i : Int} {src : List (Option α)}
    {desc : VertexBufferDescriptor} (h : copy mem dst i src desc = some mem1) :
    0 ≤ desc.length ∧ mem1.length = mem.length ∧
    (∀ q : Nat, q < desc.length.toNat →
      0 ≤ dst + i * desc.stride + q ∧ dst + i * desc.stride + q < mem.length ∧
        ∃ v, src[q]? = some (some v) ∧ load mem1 (dst + i * desc.stride + q) = some v) ∧
    ∀ p : Int, (∀ q : Nat, q < desc.length.toNat → p ≠ dst + i * desc.stride + q) →
      load mem1 p = load mem p := by
  unfold copy at h
  split at h
  · simp at h
  · obtain ⟨hl, hb, hf⟩ := memcpyLoop_spec _ _ _ _ _ _ h
    simp only [elementAtIndex] at hb hf
    exact ⟨by omega, hl, fun q hq => hb q (by omega) (by omega),
      fun p hp => hf p (fun q _ h2 => hp q (by omega))⟩

theorem copy_isSome {α : Type} (mem : List α) (dst i : Int) (src : List (Option α))
    (desc : VertexBufferDescriptor) (h0 : 0 ≤ desc.length)
    (hb : ∀ q : Nat, q < desc.length.toNat →
      0 ≤ dst + i * desc.stride + q ∧ dst + i * desc.stride + q < mem.length ∧
        ∃ v, src[q]? = some (some v)) :
    ∃ mem1, copy mem dst i src desc = some mem1 := by
  unfold copy
  rw [if_neg (by omega)]
  apply memcpyLoop_isSome
  intro q _ h2
  simp only [elementAtIndex]
  exact hb q (by omega)

/-! ## The loops of the generic path -/

theorem Ptr.add_add {β : Type} (p : Ptr β) (a b : Int) : (p.add a).add b = p.add (a + b) := by
  simp [Ptr.add, add_assoc]

theorem Ptr.get_add {β : Type} (p : Ptr β) (a b : Int) : (p.add a).get b = p.get (a + b) := by
  simp [Ptr.add, Ptr.get, add_assoc]

theorem Ptr.add_zero {β : Type} (p : Ptr β) : p.add 0 = p := by
  simp [Ptr.add]

theorem accum_shift {α : Type} [Zero α] [Add α] [Mul α] (src : Ptr α)
    (desc : VertexBufferDescriptor) (indices : Ptr Int) (weights : Ptr α) (k : Nat) (a : Int) :
    ∀ (n : Nat) (j : Int) (d : α),
      accum src desc (indices.add a) (weights.add a) k n j d
        = accum src desc indices weights k n (a + j) d := by
  intro n
  induction n with
  | zero => intro j d; rfl
  | succ n ih =>
    intro j d
    simp only [accum]
    rw [ih, Ptr.get_add, Ptr.get_add, add_assoc]

theorem termsBefore_shift (sizes : Ptr Int) :
    ∀ m : Nat, termsBefore sizes (m + 1)
      = (((sizes.get 0).getD 0).toNat : Int) + termsBefore (sizes.add 1) m := by
  intro m
  induction m with
  | zero => simp [termsBefore]
  | succ m ih =>
    rw [termsBefore, ih]
    simp only [termsBefore]
    rw [Ptr.get_add]
    have : (1 : Int) + (m : Int) = ((m + 1 : Nat) : Int) := by push_cast; ring
    rw [this]
    ring

theorem termsBefore_nonneg (sizes : Ptr Int) : ∀ m : Nat, 0 ≤ termsBefore sizes m := by
  intro m
  induction m with
  | zero => simp [termsBefore]
  | succ m ih => simp only [termsBefore]; omega

theorem row_lt {stride D i i1 : Int} {q q1 : Nat} (hs : D ≤ stride) (hi : i < i1)
    (hq : (q : Int) < D) : i * stride + q < i1 * stride + q1 := by
  have h1 : (i + 1) * stride ≤ i1 * stride :=
    mul_le_mul_of_nonneg_right (by omega) (by omega)
  have h2 : (i + 1) * stride = i * stride + stride := by ring
  omega

theorem termLoop_spec {α : Type} [Zero α] [Add α] [Mul α] (K : TBBStencilKernel α) :
    ∀ (n : Nat) (ind : Ptr Int) (w : Ptr α) (res : List (Option α))
      (ind1 : Ptr Int) (w1 : Ptr α) (res1 : List (Option α)),
      termLoop K n ind w res = some (ind1, w1, res1) →
      ind1 = ind.add n ∧ w1 = w.add n ∧ res1.length = res.length ∧
      (∀ j : Nat, j < n → ∃ idx wt, ind.get j = some idx ∧ w.get j = some wt ∧
        ∀ q : Nat, q < K._srcDesc.length.toNat →
          (∃ s, K._vertexSrc.get (idx * K._srcDesc.stride + q) = some s) ∧ q < res.length) ∧
      ∀ q : Nat, res1[q]? = if q < K._srcDesc.length.toNat then
          (res[q]?).map (Option.map (accum K._vertexSrc K._srcDesc ind w q n 0))
        else res[q]? := by
  intro n
  induction n with
  | zero =>
    intro ind w res ind1 w1 res1 h
    simp only [termLoop, Option.some.injEq, Prod.mk.injEq] at h
    obtain ⟨rfl, rfl, rfl⟩ := h
    refine ⟨by simp [Ptr.add], by simp [Ptr.add], rfl, fun j hj => by omega, fun q => ?_⟩
    have : accum K._vertexSrc K._srcDesc ind w q 0 0 = id := by funext d; rfl
    simp [this]
  | succ n ih =>
    intro ind w res ind1 w1 res1 h
    simp only [termLoop] at h
    split at h
    · rename_i idx wt hidx hwt
      split at h
      · rename_i res2 hadd
        obtain ⟨hl2, hb2, hq2⟩ := addWithWeight_spec hadd
        obtain ⟨e1, e2, hl, hb, hq⟩ := ih _ _ _ _ _ _ h
        refine ⟨?_, ?_, by omega, fun j hj => ?_, fun q => ?_⟩
        · rw [e1, Ptr.add_add]; congr 1; push_cast; ring
        · rw [e2, Ptr.add_add]; congr 1; push_cast; ring
        · cases j with
          | zero =>
            refine ⟨idx, wt, by simpa using hidx, by simpa using hwt, fun q hq1 => hb2 q hq1⟩
          | succ j =>
            obtain ⟨idx1, wt1, a, b, c⟩ := hb j (by omega)
            rw [Ptr.get_add] at a b
            have e : (1 : Int) + (j : Int) = ((j + 1 : Nat) : Int) := by push_cast; ring
            rw [e] at a b
            refine ⟨idx1, wt1, a, b, fun q hq1 => ⟨(c q hq1).1, ?_⟩⟩
            have := (c q hq1).2
            omega
        · rw [hq q]
          by_cases hql : q < K._srcDesc.length.toNat
          · rw [if_pos hql, if_pos hql, hq2 q, if_pos hql, Option.map_map]
            congr 1
            funext c
            rw [Function.comp_apply, Option.map_map]
            congr 1
            funext d
            simp only [Function.comp_apply, accum]
            rw [accum_shift, hidx, hwt]
            simp
          · rw [if_neg hql, if_neg hql, hq2 q, if_neg hql]
      · simp at h
    · simp at h

theorem termLoop_isSome {α : Type} [Zero α] [Add α] [Mul α] (K : TBBStencilKernel α) :
    ∀ (n : Nat) (ind : Ptr Int) (w : Ptr α) (res : List (Option α)),
      (∀ j : Nat, j < n → ∃ idx wt, ind.get j = some idx ∧ w.get j = some wt ∧
        ∀ q : Nat, q < K._srcDesc.length.toNat →
          ∃ s, K._vertexSrc.get (idx * K._srcDesc.stride + q) = some s) →
      K._srcDesc.length.toNat ≤ res.length →
      ∃ r, termLoop K n ind w res = some r := by
  intro n
  induction n with
  | zero => intro ind w res _ _; exact ⟨_, rfl⟩
  | succ n ih =>
    intro ind w res hv hl
    obtain ⟨idx, wt, hidx, hwt, hrow⟩ := hv 0 (by omega)
    simp only [Nat.cast_zero] at hidx hwt
    obtain ⟨res2, hadd⟩ := addWithWeight_isSome res K._vertexSrc idx wt K._srcDesc hrow hl
    simp only [termLoop, hidx, hwt, hadd]
    apply ih
    · intro j hj
      obtain ⟨idx1, wt1, a, b, c⟩ := hv (j + 1) (by omega)
      have e : ((j + 1 : Nat) : Int) = (1 : Int) + (j : Int) := by push_cast; ring
      rw [e] at a b
      exact ⟨idx1, wt1, by rw [Ptr.get_add]; exact a, by rw [Ptr.get_add]; exact b, c⟩
    · rw [(addWithWeight_spec hadd).1]
      exact hl

theorem TermsReadable_shift {α : Type} (src : Ptr α) (desc : VertexBufferDescriptor)
    (indices : Ptr Int) (weights : Ptr α) (a j0 : Int) (n : Nat) :
    TermsReadable src desc (indices.add a) (weights.add a) j0 n
      ↔ TermsReadable src desc indices weights (a + j0) n := by
  unfold TermsReadable
  simp only [Ptr.get_add, add_assoc]

theorem rowLoop_frame {α : Type} [Zero α] [Add α] [Mul α] (K : TBBStencilKernel α) :
    ∀ (n : Nat) (i : Int) (sizes ind : Ptr Int) (w : Ptr α) (res : List (Option α))
      (mem mem1 : List α), rowLoop K n i sizes ind w res mem = some mem1 →
      mem1.length = mem.length ∧
      ∀ p : Int, (∀ m : Nat, m < n → ∀ q : Nat, q < K._dstDesc.length.toNat →
          p ≠ K._vertexDst + (i + m) * K._dstDesc.stride + q) → load mem1 p = load mem p := by
  intro n
  induction n with
  | zero =>
    intro i sizes ind w res mem mem1 h
    simp only [rowLoop, Option.some.injEq] at h
    subst h
    exact ⟨rfl, fun p _ => rfl⟩
  | succ n ih =>
    intro i sizes ind w res mem mem1 h
    simp only [rowLoop] at h
    split at h
    · rename_i res1 sz hclear hsz
      split at h
      · rename_i ind1 w1 res2 hterm
        split at h
        · rename_i mem2 hcopy
          obtain ⟨_, hl2, _, hf2⟩ := copy_spec hcopy
          obtain ⟨hl, hf⟩ := ih _ _ _ _ _ _ _ h
          refine ⟨by omega, fun p hp => ?_⟩
          rw [hf p, hf2 p]
          · intro q hq
            have := hp 0 (by omega) q hq
            simpa using this
          · intro m hm q hq
            have := hp (m + 1) (by omega) q hq
            have e : i + ((m + 1 : Nat) : Int) = i + 1 + m := by push_cast; ring
            rwa [e] at this
        · simp at h
      · simp at h
    · simp at h

theorem rowLoop_spec {α : Type} [Zero α] [Add α] [Mul α] (K : TBBStencilKernel α)
    (hs : K._dstDesc.length ≤ K._dstDesc.stride) :
    ∀ (n : Nat) (i : Int) (sizes ind : Ptr Int) (w : Ptr α) (res : List (Option α))
      (mem mem1 : List α), res.length = K._srcDesc.length.toNat →
      rowLoop K n i sizes ind w res mem = some mem1 →
      0 < n → 0 ≤ K._dstDesc.length ∧
      K._dstDesc.length.toNat ≤ K._srcDesc.length.toNat ∧
      ∀ m : Nat, m < n → ∃ sz, sizes.get m = some sz ∧
        TermsReadable K._vertexSrc K._srcDesc ind w (termsBefore sizes m) sz.toNat ∧
        ∀ q : Nat, q < K._dstDesc.length.toNat →
          0 ≤ K._vertexDst + (i + m) * K._dstDesc.stride + q ∧
          K._vertexDst + (i + m) * K._dstDesc.stride + q < mem.length ∧
          load mem1 (K._vertexDst + (i + m) * K._dstDesc.stride + q)
            = some (accum K._vertexSrc K._srcDesc ind w q sz.toNat (termsBefore sizes m) 0) := by
  intro n
  induction n with
  | zero =>
    intro i sizes ind w res mem mem1 _ _ h
    omega
  | succ n ih =>
    intro i sizes ind w res mem mem1 hres h _
    simp only [rowLoop] at h
    split at h
    · rename_i res1 sz hclear hsz
      split at h
      · rename_i ind1 w1 res2 hterm
        split at h
        · rename_i mem2 hcopy
          obtain ⟨hD0, hl1, hDle, hq1⟩ := clear_spec hclear
          obtain ⟨e1, e2, hlt, hbt, hqt⟩ := termLoop_spec K _ _ _ _ _ _ _ hterm
          obtain ⟨_, hl2, hb2, hf2⟩ := copy_spec hcopy
          obtain ⟨hl, hf⟩ := rowLoop_frame K _ _ _ _ _ _ _ _ h
          have hDL : K._dstDesc.length.toNat ≤ K._srcDesc.length.toNat := by omega
          refine ⟨hD0, hDL, fun m hm => ?_⟩
          cases m with
          | zero =>
            refine ⟨sz, by simpa using hsz, ?_, fun q hq => ?_⟩
            · intro j hj
              obtain ⟨idx, wt, a, b, c⟩ := hbt j hj
              refine ⟨idx, wt, by simpa [termsBefore] using a, by simpa [termsBefore] using b,
                fun q hq => (c q hq).1⟩
            · obtain ⟨b0, b1, v, hv, hload⟩ := hb2 q hq
              simp only [Nat.cast_zero, add_zero]
              refine ⟨b0, b1, ?_⟩
              rw [hf]
              · rw [hload]
                rw [hqt q, if_pos (by omega), hq1 q, if_pos hq] at hv
                simp only [Option.map_some', Option.some.injEq] at hv
                rw [← hv]
                rfl
              · intro m hm q1 hq1
                have : i * K._dstDesc.stride + (q : Int)
                    < (i + 1 + m) * K._dstDesc.stride + (q1 : Int) :=
                  row_lt hs (by omega) (by omega)
                omega
          | succ m =>
            have hres2 : res2.length = K._srcDesc.length.toNat := by omega
            obtain ⟨_, _, hrest⟩ := ih _ _ _ _ _ _ _ hres2 h (by omega)
            obtain ⟨sz1, a, b, c⟩ := hrest m (by omega)
            have e : i + ((m + 1 : Nat) : Int) = i + 1 + m := by push_cast; ring
            have e3 : (1 : Int) + (m : Int) = ((m + 1 : Nat) : Int) := by push_cast; ring
            have hsz0 : ((sizes.get 0).getD 0).toNat = sz.toNat := by rw [hsz]; rfl
            rw [e, termsBefore_shift, hsz0]
            rw [Ptr.get_add, e3] at a
            rw [e1, e2, TermsReadable_shift] at b
            refine ⟨sz1, a, b, fun q hq => ?_⟩
            obtain ⟨c0, c1, c2⟩ := c q hq
            rw [e1, e2, accum_shift] at c2
            exact ⟨c0, by omega, c2⟩
        · simp at h
      · simp at h
    · simp at h

theorem rowLoop_isSome {α : Type} [Zero α] [Add α] [Mul α] (K : TBBStencilKernel α)
    (hD0 : 0 ≤ K._dstDesc.length)
    (hDL : K._dstDesc.length.toNat ≤ K._srcDesc.length.toNat) :
    ∀ (n : Nat) (i : Int) (sizes ind : Ptr Int) (w : Ptr α) (res : List (Option α))
      (mem : List α), res.length = K._srcDesc.length.toNat →
      (∀ m : Nat, m < n → ∃ sz, sizes.get m = some sz ∧
        TermsReadable K._vertexSrc K._srcDesc ind w (termsBefore sizes m) sz.toNat ∧
        ∀ q : Nat, q < K._dstDesc.length.toNat →
          0 ≤ K._vertexDst + (i + m) * K._dstDesc.stride + q ∧
          K._vertexDst + (i + m) * K._dstDesc.stride + q < mem.length) →
      ∃ mem1, rowLoop K n i sizes ind w res mem = some mem1 := by
  intro n
  induction n with
  | zero => intro i sizes ind w res mem _ _; exact ⟨mem, rfl⟩
  | succ n ih =>
    intro i sizes ind w res mem hres hv
    obtain ⟨sz, hsz, hterms, hdst⟩ := hv 0 (by omega)
    simp only [Nat.cast_zero, add_zero] at hsz hdst
    obtain ⟨res1, hclear⟩ := clear_isSome res K._dstDesc hD0 (by omega)
    obtain ⟨_, hl1, _, hq1⟩ := clear_spec hclear
    obtain ⟨⟨ind1, w1, res2⟩, hterm⟩ := termLoop_isSome K sz.toNat ind w res1
      (by
        intro j hj
        obtain ⟨idx, wt, a, b, c⟩ := hterms j hj
        exact ⟨idx, wt, by simpa [termsBefore] using a, by simpa [termsBefore] using b, c⟩)
      (by omega)
    obtain ⟨e1, e2, hlt, hbt, hqt⟩ := termLoop_spec K _ _ _ _ _ _ _ hterm
    obtain ⟨mem2, hcopy⟩ := copy_isSome mem K._vertexDst i res2 K._dstDesc hD0
      (by
        intro q hq
        obtain ⟨b0, b1⟩ := hdst q hq
        refine ⟨b0, b1, ?_⟩
        rw [hqt q, if_pos (by omega), hq1 q, if_pos hq]
        exact ⟨_, rfl⟩)
    obtain ⟨_, hl2, _, _⟩ := copy_spec hcopy
    simp only [rowLoop, hclear, hsz, hterm, hcopy]
    apply ih
    · omega
    · intro m hm
      obtain ⟨sz1, a, b, c⟩ := hv (m + 1) (by omega)
      have e : i + ((m + 1 : Nat) : Int) = i + 1 + m := by push_cast; ring
      have e3 : ((m + 1 : Nat) : Int) = (1 : Int) + (m : Int) := by push_cast; ring
      have hsz0 : ((sizes.get 0).getD 0).toNat = sz.toNat := by rw [hsz]; rfl
      rw [termsBefore_shift, hsz0] at b
      rw [e] at c
      rw [e3] at a
      refine ⟨sz1, by rw [Ptr.get_add]; exact a, ?_, fun q hq => ?_⟩
      · rw [e1, e2, TermsReadable_shift]; exact b
      · rw [hl2]; exact c q hq

/-! ## The generic path on one sub-range -/

theorem operator_generic {α : Type} [Zero α] [Add α] [Mul α] (K : TBBStencilKernel α)
    (h : selectPath K._srcDesc K._dstDesc = Path.generic) (r : Int × Int) (mem : List α) :
    K.operator r mem = genericPath K r.1 r.2 mem := by
  unfold TBBStencilKernel.operator
  rw [h]

theorem genericPath_frame {α : Type} [Zero α] [Add α] [Mul α] (K : TBBStencilKernel α)
    (b e : Int) (mem mem1 : List α) (h : genericPath K b e mem = some mem1) :
    mem1.length = mem.length ∧
    ∀ p : Int, (∀ i : Int, b ≤ i → i < e → ∀ q : Nat, q < K._dstDesc.length.toNat →
        p ≠ K._vertexDst + i * K._dstDesc.stride + q) → load mem1 p = load mem p := by
  simp only [genericPath] at h
  split at h
  · simp at h
  · split at h
    · simp at h
    · obtain ⟨hl, hf⟩ := rowLoop_frame K _ _ _ _ _ _ _ _ h
      refine ⟨hl, fun p hp => hf p (fun m hm q hq => hp _ (by omega) (by omega) q hq)⟩

theorem genericPath_spec {α : Type} [Zero α] [Add α] [Mul α] (K : TBBStencilKernel α)
    (hs : K._dstDesc.length ≤ K._dstDesc.stride) (b e : Int) (mem mem1 : List α)
    (h : genericPath K b e mem = some mem1) (hbe : b < e) :
    ∃ shift, (if b > 0 then K._offsets.get b else some 0) = some shift ∧
      0 ≤ K._dstDesc.length ∧ K._dstDesc.length ≤ K._srcDesc.length ∧
      ∀ m : Nat, (m : Int) < e - b → ∃ sz,
        (if b > 0 then K._sizes.add b else K._sizes).get m = some sz ∧
        TermsReadable K._vertexSrc K._srcDesc
          (if b > 0 then K._indices.add shift else K._indices)
          (if b > 0 then K._weights.add shift else K._weights)
          (termsBefore (if b > 0 then K._sizes.add b else K._sizes) m) sz.toNat ∧
        ∀ q : Nat, q < K._dstDesc.length.toNat →
          0 ≤ K._vertexDst + (b + m) * K._dstDesc.stride + q ∧
          K._vertexDst + (b + m) * K._dstDesc.stride + q < mem.length ∧
          load mem1 (K._vertexDst + (b + m) * K._dstDesc.stride + q)
            = some (accum K._vertexSrc K._srcDesc
                (if b > 0 then K._indices.add shift else K._indices)
                (if b > 0 then K._weights.add shift else K._weights) q sz.toNat
                (termsBefore (if b > 0 then K._sizes.add b else K._sizes) m) 0) := by
  simp only [genericPath] at h
  split at h
  · simp at h
  · rename_i shift hshift
    split at h
    · simp at h
    · obtain ⟨h0, h1, hrows⟩ := rowLoop_spec K hs _ _ _ _ _ _ _ _ (by simp) h (by omega)
      exact ⟨shift, hshift, h0, by omega, fun m hm => hrows m (by omega)⟩

theorem genericPath_isSome {α : Type} [Zero α] [Add α] [Mul α] (K : TBBStencilKernel α)
    (hD0 : 0 ≤ K._dstDesc.length) (hDL : K._dstDesc.length ≤ K._srcDesc.length)
    (b e : Int) (mem : List α) (shift : Int)
    (hshift : (if b > 0 then K._offsets.get b else some 0) = some shift)
    (hv : ∀ m : Nat, (m : Int) < e - b → ∃ sz,
        (if b > 0 then K._sizes.add b else K._sizes).get m = some sz ∧
        TermsReadable K._vertexSrc K._srcDesc
          (if b > 0 then K._indices.add shift else K._indices)
          (if b > 0 then K._weights.add shift else K._weights)
          (termsBefore (if b > 0 then K._sizes.add b else K._sizes) m) sz.toNat ∧
        ∀ q : Nat, q < K._dstDesc.length.toNat →
          0 ≤ K._vertexDst + (b + m) * K._dstDesc.stride + q ∧
          K._vertexDst + (b + m) * K._dstDesc.stride + q < mem.length) :
    ∃ mem1, genericPath K b e mem = some mem1 := by
  simp only [genericPath, hshift]
  rw [if_neg (by omega)]
  exact rowLoop_isSome K hD0 (by omega) _ _ _ _ _ _ _ (by simp) (fun m hm => hv m (by omega))

/-! ## Tables whose offsets are the running sums of the sizes -/

theorem getD_of_load {l : List Int} {i : Nat} {v : Int} (h : load l (i : Int) = some v) :
    l.getD i 0 = v := by
  rw [load_natCast] at h
  rw [List.getD_eq_getElem?_getD, h]
  rfl

theorem load_of_lt (l : List Int) (i : Nat) (h : i < l.length) :
    load l (i : Int) = some (l.getD i 0) := by
  rw [load_natCast, List.getD_eq_getElem?_getD, List.getElem?_eq_getElem h]
  rfl

theorem ptr_get_getD (l : List Int) (b m : Nat) :
    ((⟨l, (b : Int)⟩ : Ptr Int).get (m : Int)).getD 0 = l.getD (b + m) 0 := by
  have e : (b : Int) + (m : Int) = ((b + m : Nat) : Int) := by push_cast; rfl
  simp only [Ptr.get]
  rw [e, load_natCast, List.getD_eq_getElem?_getD]

theorem runningSums_gapped {sizes offsets : List Int} {n : Nat}
    (hrun : RunningSums sizes offsets n) : GappedOffsets sizes offsets n :=
  ⟨by rw [hrun.1], hrun.2.1, fun i h1 h2 => by rw [hrun.2.2 i h1 h2]⟩

theorem seqTermPos_bounds {sizes offsets : List Int} {n : Nat}
    (hgap : GappedOffsets sizes offsets n) (b : Nat) :
    ∀ m : Nat, b + m < n →
      0 ≤ seqTermPos sizes offsets b m ∧
      seqTermPos sizes offsets b m ≤ offsets.getD (b + m) 0 := by
  have hmono : ∀ i : Nat, i < n → 0 ≤ offsets.getD i 0 := by
    intro i
    induction i with
    | zero => intro _; exact hgap.1
    | succ i ih =>
      intro hi
      have h1 := ih (by omega)
      have h2 := hgap.2.2 i (by omega) hi
      have h3 := hgap.2.1 i (by omega)
      omega
  intro m
  induction m with
  | zero =>
    intro hb
    simp only [seqTermPos, seqShift, termsBefore, add_zero]
    split
    · exact ⟨hmono b (by omega), le_refl _⟩
    · have hb0 : b = 0 := by omega
      subst hb0
      exact ⟨le_refl _, hgap.1⟩
  | succ m ih =>
    intro h
    obtain ⟨h1, h2⟩ := ih (by omega)
    have h3 := hgap.2.2 (b + m) (by omega) (by omega)
    have h4 := hgap.2.1 (b + m) (by omega)
    simp only [seqTermPos, termsBefore] at h1 h2 ⊢
    rw [ptr_get_getD]
    have e : b + (m + 1) = b + m + 1 := by omega
    rw [e]
    omega

theorem seqTermPos_running {sizes offsets : List Int} {n : Nat}
    (hrun : RunningSums sizes offsets n) (b : Nat) :
    ∀ m : Nat, b + m < n → seqTermPos sizes offsets b m = offsets.getD (b + m) 0 := by
  intro m
  induction m with
  | zero =>
    intro _
    simp only [seqTermPos, seqShift, termsBefore, add_zero]
    split
    · rfl
    · have hb0 : b = 0 := by omega
      subst hb0
      exact hrun.1.symm
  | succ m ih =>
    intro h
    have h1 := ih (by omega)
    have h2 := hrun.2.2 (b + m) (by omega) (by omega)
    have h3 := hrun.2.1 (b + m) (by omega)
    simp only [seqTermPos, termsBefore] at h1 ⊢
    rw [ptr_get_getD]
    have e : b + (m + 1) = b + m + 1 := by omega
    rw [e, h2]
    omega

theorem startKernel_sizes {α : Type} (src : List α) (srcDesc dstDesc : VertexBufferDescriptor)
    (sizes offsets indices : List Int) (weights : List α) (b : Nat) :
    (if (b : Int) > 0 then
        (startKernel src srcDesc dstDesc sizes offsets indices weights)._sizes.add b
      else (startKernel src srcDesc dstDesc sizes offsets indices weights)._sizes)
      = ⟨sizes, (b : Int)⟩ := by
  split
  · simp [startKernel, Ptr.add]
  · have : (b : Int) = 0 := by omega
    simp [startKernel, this]

theorem startKernel_shift {α : Type} (src : List α) (srcDesc dstDesc : VertexBufferDescriptor)
    (sizes offsets indices : List Int) (weights : List α) (b : Nat) (shift : Int)
    (h : (if (b : Int) > 0 then
        (startKernel src srcDesc dstDesc sizes offsets indices weights)._offsets.get b
      else some 0) = some shift) :
    shift = seqShift offsets b := by
  unfold seqShift
  split at h
  · simp only [startKernel, Ptr.get, zero_add] at h
    rw [if_pos (by omega)]
    exact (getD_of_load h).symm
  · simp only [Option.some.injEq] at h
    rw [if_neg (by omega), h]

theorem startKernel_indices {α : Type} (src : List α) (srcDesc dstDesc : VertexBufferDescriptor)
    (sizes offsets indices : List Int) (weights : List α) (b : Nat) :
    (if (b : Int) > 0 then
        (startKernel src srcDesc dstDesc sizes offsets indices weights)._indices.add
          (seqShift offsets b)
      else (startKernel src srcDesc dstDesc sizes offsets indices weights)._indices)
      = (⟨indices, 0⟩ : Ptr Int).add (seqShift offsets b) := by
  split
  · rfl
  · have hb : ¬ 0 < b := by omega
    simp only [seqShift, hb, if_false, Ptr.add_zero]
    rfl

theorem startKernel_weights {α : Type} (src : List α) (srcDesc dstDesc : VertexBufferDescriptor)
    (sizes offsets indices : List Int) (weights : List α) (b : Nat) :
    (if (b : Int) > 0 then
        (startKernel src srcDesc dstDesc sizes offsets indices weights)._weights.add
          (seqShift offsets b)
      else (startKernel src srcDesc dstDesc sizes offsets indices weights)._weights)
      = (⟨weights, 0⟩ : Ptr α).add (seqShift offsets b) := by
  split
  · rfl
  · have hb : ¬ 0 < b := by omega
    simp only [seqShift, hb, if_false, Ptr.add_zero]
    rfl

theorem startKernel_rowPos {α : Type} (src : List α) (srcDesc dstDesc : VertexBufferDescriptor)
    (sizes offsets indices : List Int) (weights : List α) (b m q : Nat) :
    (startKernel src srcDesc dstDesc sizes offsets indices weights)._vertexDst
      + ((b : Int) + (m : Int))
        * (startKernel src srcDesc dstDesc sizes offsets indices weights)._dstDesc.stride
      + (q : Int) = rowPos dstDesc ((b + m : Nat) : Int) q := by
  simp only [startKernel, rowPos]
  push_cast
  ring

/-- What the generic path does on one sub-range `[b, e)` of a call with
`start = 0`, for any table: row `b + m` gets the `sizes[b+m]` terms found at
position `seqTermPos sizes offsets b m`. -/
theorem startKernel_task_rows {α : Type} [Zero α] [Add α] [Mul α] (src : List α)
    (srcDesc dstDesc : VertexBufferDescriptor) (sizes offsets indices : List Int)
    (weights : List α) (hs : dstDesc.length ≤ dstDesc.stride) (b : Nat) (e : Int)
    (hbe : (b : Int) < e) (mem mem1 : List α)
    (h : genericPath (startKernel src srcDesc dstDesc sizes offsets indices weights) b e mem
      = some mem1) :
    0 ≤ dstDesc.length ∧ dstDesc.length ≤ srcDesc.length ∧
    ((0 : Int) < b → load offsets (b : Int) = some (offsets.getD b 0)) ∧
    ∀ m : Nat, ((b + m : Nat) : Int) < e →
      load sizes ((b + m : Nat) : Int) = some (sizes.getD (b + m) 0) ∧
      TermsReadable ⟨src, srcDesc.offset⟩ srcDesc ⟨indices, 0⟩ ⟨weights, 0⟩
        (seqTermPos sizes offsets b m) (sizes.getD (b + m) 0).toNat ∧
      ∀ q : Nat, q < dstDesc.length.toNat →
        0 ≤ rowPos dstDesc ((b + m : Nat) : Int) q ∧
        rowPos dstDesc ((b + m : Nat) : Int) q < mem.length ∧
        load mem1 (rowPos dstDesc ((b + m : Nat) : Int) q)
          = some (accum (⟨src, srcDesc.offset⟩ : Ptr α) srcDesc ⟨indices, 0⟩ ⟨weights, 0⟩ q
              (sizes.getD (b + m) 0).toNat (seqTermPos sizes offsets b m) 0) := by
  obtain ⟨shift, hshift, h0, h1, hrows⟩ := genericPath_spec _ hs _ _ _ _ h hbe
  have hsh := startKernel_shift src srcDesc dstDesc sizes offsets indices weights b shift hshift
  subst hsh
  rw [startKernel_sizes, startKernel_indices, startKernel_weights] at hrows
  refine ⟨h0, h1, fun hb => ?_, fun m hm => ?_⟩
  · rw [if_pos (by omega)] at hshift
    simp only [startKernel, Ptr.get, zero_add] at hshift
    rw [hshift, seqShift, if_pos (by omega)]
  · obtain ⟨sz, hsz, hterms, hq⟩ := hrows m (by push_cast at hm; omega)
    have e1 : (b : Int) + (m : Int) = ((b + m : Nat) : Int) := by push_cast; rfl
    simp only [Ptr.get] at hsz
    rw [e1] at hsz
    have hszD := getD_of_load hsz
    rw [TermsReadable_shift] at hterms
    refine ⟨by rw [hszD]; exact hsz, by rw [hszD]; exact hterms, fun q hqD => ?_⟩
    obtain ⟨c0, c1, c2⟩ := hq q hqD
    rw [accum_shift, startKernel_rowPos] at c2
    rw [startKernel_rowPos] at c0 c1
    refine ⟨c0, c1, ?_⟩
    rw [c2, hszD]
    rfl

theorem startKernel_task_spec {α : Type} [Zero α] [Add α] [Mul α] (src : List α)
    (srcDesc dstDesc : VertexBufferDescriptor) (sizes offsets indices : List Int)
    (weights : List α) (n : Nat) (hrun : RunningSums sizes offsets n)
    (hs : dstDesc.length ≤ dstDesc.stride) (b e : Int) (hb : 0 ≤ b) (hbe : b < e)
    (hen : e ≤ n) (mem mem1 : List α)
    (h : genericPath (startKernel src srcDesc dstDesc sizes offsets indices weights) b e mem
      = some mem1) :
    0 ≤ dstDesc.length ∧ dstDesc.length ≤ srcDesc.length ∧
    ∀ i : Nat, b ≤ i → (i : Int) < e →
      load sizes i = some (sizes.getD i 0) ∧
      TermsReadable ⟨src, srcDesc.offset⟩ srcDesc ⟨indices, 0⟩ ⟨weights, 0⟩
        (offsets.getD i 0) (sizes.getD i 0).toNat ∧
      ∀ q : Nat, q < dstDesc.length.toNat →
        0 ≤ rowPos dstDesc i q ∧ rowPos dstDesc i q < mem.length ∧
        load mem1 (rowPos dstDesc i q)
          = some (stencilValue src srcDesc sizes offsets indices weights i q) := by
  obtain ⟨b, rfl⟩ := Int.eq_ofNat_of_zero_le hb
  obtain ⟨h0, h1, _, hrows⟩ := startKernel_task_rows src srcDesc dstDesc sizes offsets indices
    weights hs b e hbe mem mem1 h
  refine ⟨h0, h1, fun i hbi hie => ?_⟩
  obtain ⟨m, rfl⟩ : ∃ m : Nat, i = b + m := ⟨i - b, by omega⟩
  have := hrows m hie
  rw [seqTermPos_running hrun b m (by omega)] at this
  exact this

theorem validTable_termsReadable {α : Type} {src : List α} {srcDesc : VertexBufferDescriptor}
    {sizes offsets indices : List Int} {weights : List α} {n : Nat}
    (hval : ValidTable src srcDesc sizes offsets indices weights n) (t : Int) (k : Nat)
    (h0 : 0 ≤ t) (h1 : t + k ≤ indices.length) (h2 : t + k ≤ weights.length) :
    TermsReadable ⟨src, srcDesc.offset⟩ srcDesc ⟨indices, 0⟩ ⟨weights, 0⟩ t k := by
  obtain ⟨_, _, _, hidx⟩ := hval
  intro j hj
  simp only [Ptr.get, zero_add]
  obtain ⟨idx, hidx1⟩ := load_isSome indices (t + j) (by omega) (by omega)
  obtain ⟨wt, hwt⟩ := load_isSome weights (t + j) (by omega) (by omega)
  refine ⟨idx, wt, hidx1, hwt, fun q hq => ?_⟩
  have hmem : idx ∈ indices := by
    unfold load at hidx1
    split at hidx1
    · simp at hidx1
    · exact List.getElem?_mem hidx1
  obtain ⟨v0, v1⟩ := hidx idx hmem
  exact load_isSome src _ (by omega) (by omega)

theorem startKernel_task_isSome {α : Type} [Zero α] [Add α] [Mul α] (src : List α)
    (srcDesc dstDesc : VertexBufferDescriptor) (sizes offsets indices : List Int)
    (weights : List α) (n : Nat) (hD0 : 0 ≤ dstDesc.length)
    (hDL : dstDesc.length ≤ srcDesc.length) (hgap : GappedOffsets sizes offsets n)
    (hval : ValidTable src srcDesc sizes offsets indices weights n)
    (b e : Int) (hb : 0 ≤ b) (hbe : b < e) (hen : e ≤ n) (mem : List α)
    (hdst : ∀ i : Nat, b ≤ i → (i : Int) < e → ∀ q : Nat, q < dstDesc.length.toNat →
      0 ≤ rowPos dstDesc i q ∧ rowPos dstDesc i q < mem.length) :
    ∃ mem1, genericPath (startKernel src srcDesc dstDesc sizes offsets indices weights) b e mem
      = some mem1 := by
  obtain ⟨b, rfl⟩ := Int.eq_ofNat_of_zero_le hb
  have hshift : (if (b : Int) > 0 then
      (startKernel src srcDesc dstDesc sizes offsets indices weights)._offsets.get b
      else some 0) = some (seqShift offsets b) := by
    unfold seqShift
    split
    · simp only [startKernel, Ptr.get, zero_add]
      rw [if_pos (by omega)]
      exact load_of_lt offsets b (by have := hval.2.1; omega)
    · rw [if_neg (by omega)]
  apply genericPath_isSome _ hD0 hDL _ _ _ _ hshift
  intro m hm
  rw [startKernel_sizes, startKernel_indices, startKernel_weights]
  have e1 : (b : Int) + (m : Int) = ((b + m : Nat) : Int) := by push_cast; rfl
  obtain ⟨p0, p1⟩ := seqTermPos_bounds hgap b m (by omega)
  obtain ⟨t0, _, t2, t3⟩ := hval.2.2.1 (b + m) (by omega)
  refine ⟨sizes.getD (b + m) 0, ?_, ?_, fun q hq => ?_⟩
  · simp only [Ptr.get]
    rw [e1]
    exact load_of_lt sizes (b + m) (by have := hval.1; omega)
  · rw [TermsReadable_shift]
    simp only [seqTermPos] at p0 p1
    exact validTable_termsReadable hval _ _ p0 (by omega) (by omega)
  · rw [startKernel_rowPos]
    exact hdst (b + m) (by omega) (by omega) q hq

/-! ## Schedules -/

theorem isSplit_props : ∀ (l : List (Int × Int)) (b e : Int), IsSplit b e l →
    b ≤ e ∧ (∀ r ∈ l, b ≤ r.1 ∧ r.1 < r.2 ∧ r.2 ≤ e) ∧
    l.Pairwise (fun r s => r.2 ≤ s.1 ∨ s.2 ≤ r.1) ∧
    ∀ i : Int, b ≤ i → i < e → ∃ r ∈ l, r.1 ≤ i ∧ i < r.2 := by
  intro l
  induction l with
  | nil =>
    intro b e h
    simp only [IsSplit] at h
    subst h
    exact ⟨le_refl _, by simp, List.Pairwise.nil, fun i h1 h2 => by omega⟩
  | cons r rs ih =>
    intro b e h
    simp only [IsSplit] at h
    obtain ⟨h1, h2, h3⟩ := h
    obtain ⟨a, bnd, pw, cov⟩ := ih _ _ h3
    refine ⟨by omega, ?_, ?_, ?_⟩
    · intro s hs
      rcases List.mem_cons.1 hs with rfl | hs
      · exact ⟨by omega, h2, a⟩
      · obtain ⟨x, y, z⟩ := bnd s hs
        exact ⟨by omega, y, z⟩
    · refine List.Pairwise.cons ?_ pw
      intro s hs
      exact Or.inl (bnd s hs).1
    · intro i hi1 hi2
      by_cases hlt : i < r.2
      · exact ⟨r, List.mem_cons_self _ _, by omega, hlt⟩
      · obtain ⟨s, hs, x⟩ := cov i (by omega) hi2
        exact ⟨s, List.mem_cons_of_mem _ hs, x⟩

theorem isSchedule_props {start end_ : Int} {tasks : List (Int × Int)}
    (h : IsSchedule start end_ tasks) :
    start ≤ end_ ∧ (∀ r ∈ tasks, start ≤ r.1 ∧ r.1 < r.2 ∧ r.2 ≤ end_) ∧
    tasks.Pairwise (fun r s => r.2 ≤ s.1 ∨ s.2 ≤ r.1) ∧
    ∀ i : Int, start ≤ i → i < end_ → ∃ r ∈ tasks, r.1 ≤ i ∧ i < r.2 := by
  obtain ⟨split, hsplit, hperm⟩ := h
  obtain ⟨a, bnd, pw, cov⟩ := isSplit_props _ _ _ hsplit
  refine ⟨a, fun r hr => bnd r (hperm.mem_iff.1 hr), ?_, fun i h1 h2 => ?_⟩
  · exact (List.Perm.pairwise_iff (fun hxy => Or.symm hxy) hperm).2 pw
  · obtain ⟨r, hr, x⟩ := cov i h1 h2
    exact ⟨r, hperm.mem_iff.2 hr, x⟩

theorem runTasks_frame {α : Type} [Zero α] [Add α] [Mul α] (K : TBBStencilKernel α)
    (hgen : selectPath K._srcDesc K._dstDesc = Path.generic) :
    ∀ (tasks : List (Int × Int)) (mem mem1 : List α),
      runTasks K.operator tasks mem = some mem1 →
      mem1.length = mem.length ∧
      ∀ p : Int, (∀ r ∈ tasks, ∀ i : Int, r.1 ≤ i → i < r.2 → ∀ q : Nat,
          q < K._dstDesc.length.toNat → p ≠ K._vertexDst + i * K._dstDesc.stride + q) →
        load mem1 p = load mem p := by
  intro tasks
  induction tasks with
  | nil =>
    intro mem mem1 h
    simp only [runTasks, Option.some.injEq] at h
    subst h
    exact ⟨rfl, fun p _ => rfl⟩
  | cons r rs ih =>
    intro mem mem1 h
    simp only [runTasks] at h
    split at h
    · rename_i mem2 hop
      rw [operator_generic K hgen] at hop
      obtain ⟨hl2, hf2⟩ := genericPath_frame K _ _ _ _ hop
      obtain ⟨hl, hf⟩ := ih _ _ h
      refine ⟨by omega, fun p hp => ?_⟩
      rw [hf p (fun s hs => hp s (List.mem_cons_of_mem _ hs)),
        hf2 p (hp r (List.mem_cons_self _ _))]
    · simp at h

theorem TbbEvalStencils_kernel {α : Type} [Zero α] [Add α] [Mul α] (src : List α)
    (srcDesc : VertexBufferDescriptor) (dst : List α) (dstDesc : VertexBufferDescriptor)
    (sizes offsets indices : List Int) (weights : List α) (start end_ : Int)
    (tasks : List (Int × Int)) (dst1 : List α)
    (h : TbbEvalStencils src srcDesc dst dstDesc sizes offsets indices weights start end_ tasks
      = some dst1) :
    ∃ K : TBBStencilKernel α, K._srcDesc = srcDesc ∧ K._dstDesc = dstDesc ∧
      K._vertexSrc = ⟨src, srcDesc.offset⟩ ∧ K._vertexDst = dstDesc.offset ∧
      parallel_for start end_ grain_size tasks K.operator dst = some dst1 := by
  simp only [TbbEvalStencils] at h
  split at h
  · simp at h
  · exact ⟨_, rfl, rfl, rfl, rfl, h⟩

theorem TbbEvalStencils_zero {α : Type} [Zero α] [Add α] [Mul α] (src : List α)
    (srcDesc : VertexBufferDescriptor) (dst : List α) (dstDesc : VertexBufferDescriptor)
    (sizes offsets indices : List Int) (weights : List α) (end_ : Int)
    (tasks : List (Int × Int)) :
    TbbEvalStencils src srcDesc dst dstDesc sizes offsets indices weights 0 end_ tasks
      = parallel_for 0 end_ grain_size tasks
          (startKernel src srcDesc dstDesc sizes offsets indices weights).operator dst := by
  simp [TbbEvalStencils, startKernel]

theorem rowPos_ne {desc : VertexBufferDescriptor} (hs : desc.length ≤ desc.stride)
    {i i1 : Int} (hne : i ≠ i1) {q q1 : Nat} (hq : q < desc.length.toNat)
    (hq1 : q1 < desc.length.toNat) :
    rowPos desc i q ≠ desc.offset + i1 * desc.stride + q1 := by
  unfold rowPos
  rcases lt_or_gt_of_ne hne with h | h
  · have := @row_lt desc.stride desc.length i i1 q q1 hs h (by omega)
    omega
  · have := @row_lt desc.stride desc.length i1 i q1 q hs h (by omega)
    omega

theorem runTasks_startKernel_spec {α : Type} [Zero α] [Add α] [Mul α] (src : List α)
    (srcDesc dstDesc : VertexBufferDescriptor) (sizes offsets indices : List Int)
    (weights : List α) (n : Nat)
    (hgen : selectPath srcDesc dstDesc = Path.generic)
    (hrun : RunningSums sizes offsets n) (hs : dstDesc.length ≤ dstDesc.stride) :
    ∀ (tasks : List (Int × Int)) (mem mem1 : List α),
      (∀ r ∈ tasks, 0 ≤ r.1 ∧ r.1 < r.2 ∧ r.2 ≤ n) →
      tasks.Pairwise (fun r s => r.2 ≤ s.1 ∨ s.2 ≤ r.1) →
      runTasks (startKernel src srcDesc dstDesc sizes offsets indices weights).operator
        tasks mem = some mem1 →
      ∀ r ∈ tasks, 0 ≤ dstDesc.length ∧ dstDesc.length ≤ srcDesc.length ∧
        ∀ i : Nat, r.1 ≤ i → (i : Int) < r.2 →
        load sizes i = some (sizes.getD i 0) ∧
        TermsReadable ⟨src, srcDesc.offset⟩ srcDesc ⟨indices, 0⟩ ⟨weights, 0⟩
          (offsets.getD i 0) (sizes.getD i 0).toNat ∧
        ∀ q : Nat, q < dstDesc.length.toNat →
          0 ≤ rowPos dstDesc i q ∧ rowPos dstDesc i q < mem.length ∧
          load mem1 (rowPos dstDesc i q)
            = some (stencilValue src srcDesc sizes offsets indices weights i q) := by
  intro tasks
  induction tasks with
  | nil => intro mem mem1 _ _ _ r hr; simp at hr
  | cons r rs ih =>
    intro mem mem1 hbnd hpw h s hsmem
    simp only [runTasks] at h
    split at h
    · rename_i mem2 hop
      have hgenK : selectPath
          (startKernel src srcDesc dstDesc sizes offsets indices weights)._srcDesc
          (startKernel src srcDesc dstDesc sizes offsets indices weights)._dstDesc
          = Path.generic := hgen
      rw [operator_generic _ hgenK] at hop
      obtain ⟨hl2, _⟩ := genericPath_frame _ _ _ _ _ hop
      obtain ⟨hpw1, hpw2⟩ := List.pairwise_cons.1 hpw
      rcases List.mem_cons.1 hsmem with rfl | hsrs
      · obtain ⟨b0, b1, b2⟩ := hbnd s (List.mem_cons_self _ _)
        obtain ⟨hD0, hDL, hrows⟩ := startKernel_task_spec src srcDesc dstDesc sizes offsets
          indices weights n hrun hs s.1 s.2 b0 b1 b2 mem mem2 hop
        refine ⟨hD0, hDL, fun i hi1 hi2 => ?_⟩
        obtain ⟨c0, c1, c2⟩ := hrows i hi1 hi2
        refine ⟨c0, c1, fun q hq => ?_⟩
        obtain ⟨d0, d1, d2⟩ := c2 q hq
        refine ⟨d0, d1, ?_⟩
        obtain ⟨_, hf⟩ := runTasks_frame _ hgenK _ _ _ h
        rw [hf, d2]
        intro t ht i1 hi3 hi4 q1 hq1
        have hne : (i : Int) ≠ i1 := by
          rcases hpw1 t ht with h5 | h5 <;> omega
        exact rowPos_ne hs hne hq hq1
      · have := ih mem2 mem1 (fun t ht => hbnd t (List.mem_cons_of_mem _ ht)) hpw2 h s hsrs
        rw [hl2] at this
        exact this
    · simp at h

theorem runTasks_startKernel_isSome {α : Type} [Zero α] [Add α] [Mul α] (src : List α)
    (srcDesc dstDesc : VertexBufferDescriptor) (sizes offsets indices : List Int)
    (weights : List α) (n : Nat)
    (hgen : selectPath srcDesc dstDesc = Path.generic)
    (hD0 : 0 ≤ dstDesc.length) (hDL : dstDesc.length ≤ srcDesc.length)
    (hgap : GappedOffsets sizes offsets n)
    (hval : ValidTable src srcDesc sizes offsets indices weights n) (len : Nat) (e : Int)
    (hdst : ∀ i : Nat, (i : Int) < e → ∀ q : Nat, q < dstDesc.length.toNat →
      0 ≤ rowPos dstDesc i q ∧ rowPos dstDesc i q < len) :
    ∀ (tasks : List (Int × Int)) (mem : List α), mem.length = len →
      (∀ r ∈ tasks, 0 ≤ r.1 ∧ r.1 < r.2 ∧ r.2 ≤ e ∧ r.2 ≤ n) →
      ∃ mem1,
        runTasks (startKernel src srcDesc dstDesc sizes offsets indices weights).operator
          tasks mem = some mem1 := by
  intro tasks
  induction tasks with
  | nil => intro mem _ _; exact ⟨mem, rfl⟩
  | cons r rs ih =>
    intro mem hlen hbnd
    have hgenK : selectPath
        (startKernel src srcDesc dstDesc sizes offsets indices weights)._srcDesc
        (startKernel src srcDesc dstDesc sizes offsets indices weights)._dstDesc
        = Path.generic := hgen
    obtain ⟨b0, b1, b2, b3⟩ := hbnd r (List.mem_cons_self _ _)
    obtain ⟨mem2, hop⟩ := startKernel_task_isSome src srcDesc dstDesc sizes offsets indices
      weights n hD0 hDL hgap hval r.1 r.2 b0 b1 b3 mem
      (fun i _ hi2 q hq => by rw [hlen]; exact hdst i (by omega) q hq)
    obtain ⟨hl2, _⟩ := genericPath_frame _ _ _ _ _ hop
    simp only [runTasks, operator_generic _ hgenK, hop]
    exact ih mem2 (by omega) (fun t ht => hbnd t (List.mem_cons_of_mem _ ht))

/-! ## Sums in exact arithmetic -/

theorem accum_eq_sum {α : Type} [CommSemiring α] (src : Ptr α) (desc : VertexBufferDescriptor)
    (ind : Ptr Int) (w : Ptr α) (k : Nat) :
    ∀ (n : Nat) (j : Int) (d : α), accum src desc ind w k n j d
      = d + ((List.range n).map fun t : Nat =>
          (w.get (j + t)).getD 0 * sourceRow src desc ((ind.get (j + t)).getD 0) k).sum := by
  intro n
  induction n with
  | zero => intro j d; simp [accum]
  | succ n ih =>
    intro j d
    simp only [accum]
    rw [ih, List.range_succ_eq_map, List.map_cons, List.sum_cons, List.map_map]
    simp only [Nat.cast_zero, add_zero, Function.comp_def, Nat.succ_eq_add_one, Nat.cast_add,
      Nat.cast_one]
    have e : ∀ t : Nat, j + 1 + (t : Int) = j + ((t : Int) + 1) := fun t => by ring
    simp only [e]
    rw [mul_comm (sourceRow src desc ((ind.get j).getD 0) k), add_assoc]

theorem stencilValue_eq_weightedSum {α : Type} [CommSemiring α] (src : List α)
    (srcDesc : VertexBufferDescriptor) (sizes offsets indices : List Int) (weights : List α)
    (i k : Nat) :
    stencilValue src srcDesc sizes offsets indices weights i k
      = weightedSum src srcDesc sizes offsets indices weights i k := by
  unfold stencilValue weightedSum
  rw [accum_eq_sum, zero_add]
  congr 1
  apply List.map_congr_left
  intro t _
  simp only [weightAt, indexAt, sourceChannel, sourceRow, Ptr.get, rowPos, zero_add]
  congr 3
  ring

/-! ## The whole call with `start = 0` -/

theorem validRow_bounds {α : Type} {buf : List α} {desc : VertexBufferDescriptor} {i : Int}
    (h : ValidRow buf desc i) (q : Nat) (hq : q < desc.length.toNat) :
    0 ≤ rowPos desc i q ∧ rowPos desc i q < buf.length := by
  unfold ValidRow at h
  unfold rowPos
  omega

theorem evalStencils_isSome {α : Type} [Zero α] [Add α] [Mul α] (src dst : List α)
    (srcDesc dstDesc : VertexBufferDescriptor) (sizes offsets indices : List Int)
    (weights : List α) (N e : Nat) (tasks : List (Int × Int))
    (hgen : selectPath srcDesc dstDesc = Path.generic)
    (hD0 : 0 ≤ dstDesc.length) (hDL : dstDesc.length ≤ srcDesc.length)
    (hval : ValidTable src srcDesc sizes offsets indices weights N)
    (hgap : GappedOffsets sizes offsets N)
    (hdst : ∀ i : Nat, i < e → ValidRow dst dstDesc i)
    (he : e ≤ N) (hsched : IsSchedule 0 e tasks) :
    ∃ dst1, TbbEvalStencils src srcDesc dst dstDesc sizes offsets indices weights 0 e tasks
      = some dst1 := by
  obtain ⟨_, hbnd, _, _⟩ := isSchedule_props hsched
  rw [TbbEvalStencils_zero]
  unfold parallel_for
  split
  · exact runTasks_startKernel_isSome src srcDesc dstDesc sizes offsets indices weights N hgen
      hD0 hDL hgap hval dst.length e
      (fun i hi q hq => validRow_bounds (hdst i (by omega)) q hq) tasks dst rfl
      (fun r hr => by
        obtain ⟨a, b, c⟩ := hbnd r hr
        exact ⟨a, b, c, by omega⟩)
  · exact ⟨dst, rfl⟩

theorem evalStencils_rows {α : Type} [Zero α] [Add α] [Mul α] (src dst : List α)
    (srcDesc dstDesc : VertexBufferDescriptor) (sizes offsets indices : List Int)
    (weights : List α) (N e : Nat) (tasks : List (Int × Int)) (dst1 : List α)
    (hgen : selectPath srcDesc dstDesc = Path.generic)
    (hds : dstDesc.length ≤ dstDesc.stride)
    (hrun : RunningSums sizes offsets N)
    (he : e ≤ N) (hsched : IsSchedule 0 e tasks)
    (h : TbbEvalStencils src srcDesc dst dstDesc sizes offsets indices weights 0 e tasks
      = some dst1) :
    dst1.length = dst.length ∧
    (∀ p : Int, (∀ i : Nat, i < e → ∀ q : Nat, q < dstDesc.length.toNat →
        p ≠ rowPos dstDesc i q) → load dst1 p = load dst p) ∧
    ∀ i : Nat, i < e →
      (0 ≤ dstDesc.length ∧ dstDesc.length ≤ srcDesc.length) ∧
      load sizes i = some (sizes.getD i 0) ∧
      TermsReadable ⟨src, srcDesc.offset⟩ srcDesc ⟨indices, 0⟩ ⟨weights, 0⟩
        (offsets.getD i 0) (sizes.getD i 0).toNat ∧
      ∀ q : Nat, q < dstDesc.length.toNat →
        0 ≤ rowPos dstDesc i q ∧ rowPos dstDesc i q < dst.length ∧
        load dst1 (rowPos dstDesc i q)
          = some (stencilValue src srcDesc sizes offsets indices weights i q) := by
  obtain ⟨_, hbnd, hpw, hcov⟩ := isSchedule_props hsched
  rw [TbbEvalStencils_zero] at h
  unfold parallel_for at h
  split at h
  · have hgenK : selectPath
        (startKernel src srcDesc dstDesc sizes offsets indices weights)._srcDesc
        (startKernel src srcDesc dstDesc sizes offsets indices weights)._dstDesc
        = Path.generic := hgen
    obtain ⟨hl, hf⟩ := runTasks_frame _ hgenK _ _ _ h
    refine ⟨hl, fun p hp => ?_, fun i hi => ?_⟩
    · apply hf
      intro r hr i hi1 hi2 q hq
      obtain ⟨a, b, c⟩ := hbnd r hr
      obtain ⟨i, rfl⟩ := Int.eq_ofNat_of_zero_le (show 0 ≤ i by omega)
      have := hp i (by omega) q hq
      simp only [rowPos] at this
      simp only [startKernel]
      intro heq
      apply this
      rw [heq]
      ring
    · obtain ⟨r, hr, hi1, hi2⟩ := hcov i (by omega) (by omega)
      obtain ⟨hD0, hDL, hrows⟩ := runTasks_startKernel_spec src srcDesc dstDesc sizes offsets
        indices weights N hgen hrun hds tasks dst dst1
        (fun r hr => by
          obtain ⟨a, b, c⟩ := hbnd r hr
          exact ⟨a, b, by omega⟩) hpw h r hr
      exact ⟨⟨hD0, hDL⟩, hrows i hi1 hi2⟩
  · rename_i hlt
    simp only [Option.some.injEq] at h
    subst h
    refine ⟨rfl, fun p _ => rfl, fun i hi => ?_⟩
    omega

theorem runTasks_rows {α : Type} [Zero α] [Add α] [Mul α] (K : TBBStencilKernel α)
    (hgen : selectPath K._srcDesc K._dstDesc = Path.generic)
    (hs : K._dstDesc.length ≤ K._dstDesc.stride) (P : Int → Nat → α → Prop) :
    ∀ (tasks : List (Int × Int)) (mem mem1 : List α),
      tasks.Pairwise (fun r s => r.2 ≤ s.1 ∨ s.2 ≤ r.1) →
      (∀ r ∈ tasks, ∀ m m1 : List α, K.operator r m = some m1 →
        ∀ i : Int, r.1 ≤ i → i < r.2 → ∀ q : Nat, q < K._dstDesc.length.toNat →
          ∃ v, load m1 (K._vertexDst + i * K._dstDesc.stride + q) = some v ∧ P i q v) →
      runTasks K.operator tasks mem = some mem1 →
      ∀ r ∈ tasks, ∀ i : Int, r.1 ≤ i → i < r.2 → ∀ q : Nat, q < K._dstDesc.length.toNat →
        ∃ v, load mem1 (K._vertexDst + i * K._dstDesc.stride + q) = some v ∧ P i q v := by
  intro tasks
  induction tasks with
  | nil => intro mem mem1 _ _ _ r hr; simp at hr
  | cons r rs ih =>
    intro mem mem1 hpw htask h s hsmem i hi1 hi2 q hq
    simp only [runTasks] at h
    split at h
    · rename_i mem2 hop
      obtain ⟨hpw1, hpw2⟩ := List.pairwise_cons.1 hpw
      rcases List.mem_cons.1 hsmem with rfl | hsrs
      · obtain ⟨v, hv, hP⟩ := htask s (List.mem_cons_self _ _) mem mem2 hop i hi1 hi2 q hq
        refine ⟨v, ?_, hP⟩
        obtain ⟨_, hf⟩ := runTasks_frame K hgen _ _ _ h
        rw [hf, hv]
        intro t ht i1 hi3 hi4 q1 hq1
        have hne : i ≠ i1 := by
          rcases hpw1 t ht with h5 | h5 <;> omega
        rcases lt_or_gt_of_ne hne with h6 | h6
        · have := @row_lt K._dstDesc.stride K._dstDesc.length i i1 q q1 hs h6 (by omega)
          omega
        · have := @row_lt K._dstDesc.stride K._dstDesc.length i1 i q1 q hs h6 (by omega)
          omega
      · exact ih mem2 mem1 hpw2 (fun t ht => htask t (List.mem_cons_of_mem _ ht)) h s hsrs
          i hi1 hi2 q hq
    · simp at h

/-! ## Dependence on the source buffer -/

theorem addWithWeightLoop_congr {α : Type} [Add α] [Mul α] (src1 src2 : Ptr α) (w : α) :
    ∀ (n k : Nat) (dst : List (Option α)),
      (∀ q : Nat, k ≤ q → q < k + n → src1.get q = src2.get q) →
      addWithWeightLoop src1 w n k dst = addWithWeightLoop src2 w n k dst := by
  intro n
  induction n with
  | zero => intro k dst _; rfl
  | succ n ih =>
    intro k dst h
    simp only [addWithWeightLoop]
    rw [h k (by omega) (by omega)]
    split
    · exact ih _ _ (fun q h1 h2 => h q (by omega) (by omega))
    · rfl

theorem termLoop_congr {α : Type} [Add α] [Mul α] (K : TBBStencilKernel α) (src2 : List α)
    (hsrc : ∀ (r : Int) (k : Nat), (k : Int) < K._srcDesc.length →
      load K._vertexSrc.mem (K._vertexSrc.pos + r * K._srcDesc.stride + k)
        = load src2 (K._vertexSrc.pos + r * K._srcDesc.stride + k)) :
    ∀ (n : Nat) (ind : Ptr Int) (w : Ptr α) (res : List (Option α)),
      termLoop K n ind w res
        = termLoop { K with _vertexSrc := ⟨src2, K._vertexSrc.pos⟩ } n ind w res := by
  intro n
  induction n with
  | zero => intro ind w res; rfl
  | succ n ih =>
    intro ind w res
    simp only [termLoop]
    split
    · rename_i idx wt _ _
      have e : addWithWeight res K._vertexSrc idx wt K._srcDesc
          = addWithWeight res ⟨src2, K._vertexSrc.pos⟩ idx wt K._srcDesc := by
        unfold addWithWeight
        apply addWithWeightLoop_congr
        intro q _ hq
        simp only [Ptr.get, elementAtIndex]
        exact hsrc idx q (by omega)
      rw [e]
      split
      · exact ih _ _ _
      · rfl
    · rfl

theorem rowLoop_congr {α : Type} [Zero α] [Add α] [Mul α] (K : TBBStencilKernel α)
    (src2 : List α)
    (hsrc : ∀ (r : Int) (k : Nat), (k : Int) < K._srcDesc.length →
      load K._vertexSrc.mem (K._vertexSrc.pos + r * K._srcDesc.stride + k)
        = load src2 (K._vertexSrc.pos + r * K._srcDesc.stride + k)) :
    ∀ (n : Nat) (i : Int) (sizes ind : Ptr Int) (w : Ptr α) (res : List (Option α))
      (mem : List α),
      rowLoop K n i sizes ind w res mem
        = rowLoop { K with _vertexSrc := ⟨src2, K._vertexSrc.pos⟩ } n i sizes ind w res mem := by
  intro n
  induction n with
  | zero => intro i sizes ind w res mem; rfl
  | succ n ih =>
    intro i sizes ind w res mem
    simp only [rowLoop]
    split
    · rw [termLoop_congr K src2 hsrc]
      split
      · split
        · exact ih _ _ _ _ _ _
        · rfl
      · rfl
    · rfl

theorem runTasks_congr {σ : Type} (f g : Int × Int → σ → Option σ)
    (h : ∀ r s, f r s = g r s) :
    ∀ (tasks : List (Int × Int)) (s : σ), runTasks f tasks s = runTasks g tasks s := by
  intro tasks
  induction tasks with
  | nil => intro s; rfl
  | cons r rs ih =>
    intro s
    simp only [runTasks]
    rw [h r s]
    split
    · exact ih _
    · rfl

/-! ## The fixed-width primitive against the generic loops -/

theorem loadRow_some {α : Type} (src : Ptr α) :
    ∀ (n : Nat) (k : Int) (row : List α), loadRow src n k = some row →
      row.length = n ∧ ∀ q : Nat, q < n → ∃ s, src.get (k + q) = some s ∧ row[q]? = some s := by
  intro n
  induction n with
  | zero =>
    intro k row h
    simp only [loadRow, Option.some.injEq] at h
    subst h
    exact ⟨rfl, fun q hq => by omega⟩
  | succ n ih =>
    intro k row h
    simp only [loadRow] at h
    split at h
    · rename_i v vs hv hvs
      simp only [Option.some.injEq] at h
      subst h
      obtain ⟨hl, hq⟩ := ih _ _ hvs
      refine ⟨by simp [hl], fun q hq1 => ?_⟩
      cases q with
      | zero => exact ⟨v, by simpa using hv, by simp⟩
      | succ q =>
        obtain ⟨s, hs1, hs2⟩ := hq q (by omega)
        refine ⟨s, ?_, by simpa using hs2⟩
        rw [← hs1]
        congr 1
        push_cast
        ring
    · simp at h

theorem loadRow_none {α : Type} (src : Ptr α) :
    ∀ (n : Nat) (k : Int), loadRow src n k = none →
      ∃ q : Nat, q < n ∧ src.get (k + q) = none := by
  intro n
  induction n with
  | zero => intro k h; simp [loadRow] at h
  | succ n ih =>
    intro k h
    cases hv : src.get k with
    | none => exact ⟨0, by omega, by simpa using hv⟩
    | some v =>
      cases hvs : loadRow src n (k + 1) with
      | none =>
        obtain ⟨q, hq, hn⟩ := ih _ hvs
        refine ⟨q + 1, by omega, ?_⟩
        rw [← hn]
        congr 1
        push_cast
        ring
      | some vs => simp [loadRow, hv, hvs] at h

theorem addWithWeight_eq_zipWith {α : Type} [Zero α] [Add α] [Mul α] (result : List α)
    (src : Ptr α) (index : Int) (wt : α) (desc : VertexBufferDescriptor)
    (hlen : result.length = desc.length.toNat) :
    addWithWeight (result.map some) src index wt desc
      = (loadRow src desc.length.toNat (index * desc.stride)).map
          (fun row => (List.zipWith (fun d s => d + s * wt) result row).map some) := by
  cases hrow : loadRow src desc.length.toNat (index * desc.stride) with
  | none =>
    obtain ⟨q, hq, hn⟩ := loadRow_none _ _ _ hrow
    cases hadd : addWithWeight (result.map some) src index wt desc with
    | none => rfl
    | some dst1 =>
      obtain ⟨s, hs⟩ := ((addWithWeight_spec hadd).2.1 q hq).1
      rw [hn] at hs
      simp at hs
  | some row =>
    obtain ⟨hl, hq⟩ := loadRow_some _ _ _ _ hrow
    obtain ⟨dst1, hadd⟩ := addWithWeight_isSome (result.map some) src index wt desc
      (fun q hq1 => by
        obtain ⟨s, hs, _⟩ := hq q hq1
        exact ⟨s, hs⟩)
      (by simp [hlen])
    rw [hadd]
    simp only [Option.map_some', Option.some.injEq]
    apply List.ext_getElem?
    intro q
    rw [(addWithWeight_spec hadd).2.2 q, List.getElem?_map, List.getElem?_map,
      List.getElem?_zipWith]
    by_cases hq1 : q < desc.length.toNat
    · obtain ⟨s, hs1, hs2⟩ := hq q hq1
      have hlt : q < result.length := by omega
      have hr : result[q]? = some result[q] := List.getElem?_eq_getElem hlt
      rw [if_pos hq1, hr, hs2]
      simp only [Option.map_some', sourceRow, hs1, Option.getD_some]
    · have hr : result[q]? = none := List.getElem?_eq_none (by omega)
      rw [if_neg hq1, hr]

theorem memcpyLoop_eq_storeRow {α : Type} (p : Int) :
    ∀ (vals pre : List α) (mem : List α),
      memcpyLoop ((pre ++ vals).map some) p vals.length pre.length mem
        = storeRow vals (p + pre.length) mem := by
  intro vals
  induction vals with
  | nil => intro pre mem; rfl
  | cons v vs ih =>
    intro pre mem
    have hget : ((pre ++ v :: vs).map some)[pre.length]? = some (some v) := by
      rw [List.getElem?_map, List.getElem?_append_right (le_refl _)]
      simp
    simp only [List.length_cons, memcpyLoop, storeRow, hget]
    cases hst : store mem (p + pre.length) v with
    | none => rfl
    | some mem1 =>
      have := ih (pre ++ [v]) mem1
      simp only [List.append_assoc, List.singleton_append, List.length_append,
        List.length_singleton] at this
      dsimp only
      rw [this]
      congr 1
      push_cast
      ring

theorem copy_eq_storeRow {α : Type} (mem : List α) (dst i : Int) (vals : List α)
    (desc : VertexBufferDescriptor) (h0 : 0 ≤ desc.length)
    (hlen : vals.length = desc.length.toNat) :
    copy mem dst i (vals.map some) desc = storeRow vals (dst + i * desc.stride) mem := by
  unfold copy
  rw [if_neg (by omega), ← hlen]
  have := memcpyLoop_eq_storeRow (elementAtIndex dst i desc) vals [] mem
  simp only [List.nil_append, List.length_nil, Nat.cast_zero, add_zero] at this
  rw [this]
  rfl

theorem clear_eq_replicate {α : Type} [Zero α] (res : List (Option α))
    (desc : VertexBufferDescriptor) (h0 : 0 ≤ desc.length)
    (hlen : res.length = desc.length.toNat) :
    clear res desc = some ((List.replicate desc.length.toNat (0 : α)).map some) := by
  obtain ⟨res1, h⟩ := clear_isSome res desc h0 (by omega)
  obtain ⟨_, hl, _, hq⟩ := clear_spec h
  rw [h]
  congr 1
  apply List.ext_getElem?
  intro q
  rw [hq q, List.getElem?_map, List.getElem?_replicate]
  by_cases hq1 : q < desc.length.toNat
  · simp [hq1]
  · rw [if_neg hq1, if_neg hq1, List.getElem?_eq_none (by omega)]
    rfl

theorem fixedTermLoop_length {α : Type} [Add α] [Mul α] (w : Nat) (src : Ptr α) :
    ∀ (n : Nat) (ind : Ptr Int) (wts : Ptr α) (result : List α) (t : Ptr Int × Ptr α × List α),
      result.length = w → fixedTermLoop w src n ind wts result = some t → t.2.2.length = w := by
  intro n
  induction n with
  | zero =>
    intro ind wts result t hl h
    simp only [fixedTermLoop, Option.some.injEq] at h
    subst h
    exact hl
  | succ n ih =>
    intro ind wts result t hl h
    simp only [fixedTermLoop] at h
    split at h
    · split at h
      · rename_i row hrow
        refine ih _ _ _ _ ?_ h
        rw [List.length_zipWith, hl, (loadRow_some _ _ _ _ hrow).1]
        simp
      · simp at h
    · simp at h

theorem termLoop_eq_fixed {α : Type} [Zero α] [Add α] [Mul α] (K : TBBStencilKernel α)
    (w : Nat) (hsl : K._srcDesc.length.toNat = w) (hss : K._srcDesc.stride = w) :
    ∀ (n : Nat) (ind : Ptr Int) (wts : Ptr α) (result : List α), result.length = w →
      termLoop K n ind wts (result.map some)
        = (fixedTermLoop w K._vertexSrc n ind wts result).map
            (fun t => (t.1, t.2.1, t.2.2.map some)) := by
  intro n
  induction n with
  | zero => intro ind wts result _; rfl
  | succ n ih =>
    intro ind wts result hl
    simp only [termLoop, fixedTermLoop]
    cases h1 : ind.get 0 with
    | none => rfl
    | some idx =>
      cases h2 : wts.get 0 with
      | none => rfl
      | some wt =>
        dsimp only
        rw [addWithWeight_eq_zipWith result K._vertexSrc idx wt K._srcDesc (by omega), hsl, hss]
        cases hrow : loadRow K._vertexSrc w (idx * (w : Int)) with
        | none => rfl
        | some row =>
          dsimp only [Option.map_some']
          apply ih
          rw [List.length_zipWith, hl, (loadRow_some _ _ _ _ hrow).1]
          simp

theorem rowLoop_eq_fixed {α : Type} [Zero α] [Add α] [Mul α] (K : TBBStencilKernel α)
    (w : Nat) (hsl : K._srcDesc.length = w) (hss : K._srcDesc.stride = w)
    (hds : K._dstDesc.stride = w) (hdl : K._dstDesc.length = w) (sizes0 : Ptr Int) :
    ∀ (n : Nat) (i : Int) (ind : Ptr Int) (wts : Ptr α) (res : List (Option α)) (mem : List α),
      res.length = w →
      rowLoop K n i (sizes0.add i) ind wts res mem
        = fixedRowLoop w K._vertexSrc K._vertexDst sizes0 n i ind wts mem := by
  intro n
  induction n with
  | zero => intro i ind wts res mem _; rfl
  | succ n ih =>
    intro i ind wts res mem hl
    have hDn : K._dstDesc.length.toNat = w := by omega
    have hLn : K._srcDesc.length.toNat = w := by omega
    simp only [rowLoop, fixedRowLoop]
    rw [clear_eq_replicate res K._dstDesc (by omega) (by omega), Ptr.get_add, add_zero, hDn]
    cases hsz : sizes0.get i with
    | none => rfl
    | some size =>
      dsimp only
      rw [termLoop_eq_fixed K w hLn hss _ _ _ _ (by simp)]
      cases hterm : fixedTermLoop w K._vertexSrc size.toNat ind wts (List.replicate w 0) with
      | none => rfl
      | some t =>
        obtain ⟨ind1, wts1, result⟩ := t
        have hrl : result.length = w :=
          fixedTermLoop_length w K._vertexSrc _ _ _ _ _ (by simp) hterm
        dsimp only [Option.map_some']
        rw [copy_eq_storeRow mem K._vertexDst i result K._dstDesc (by omega) (by omega), hds]
        cases hst : storeRow result (K._vertexDst + i * (w : Int)) mem with
        | none => rfl
        | some mem1 =>
          dsimp only
          rw [Ptr.add_add]
          exact ih _ _ _ _ _ (by simp [hrl])

/-! ## Rows of particular stencils -/

theorem empty_stencil_row {α : Type} [Zero α] [Add α] [Mul α] (src dst : List α)
    (srcDesc dstDesc : VertexBufferDescriptor) (sizes offsets indices : List Int)
    (weights : List α) (N : Nat) (tasks : List (Int × Int)) (dst1 : List α)
    (hgen : selectPath srcDesc dstDesc = Path.generic)
    (hds : dstDesc.length ≤ dstDesc.stride)
    (hsched : IsSchedule 0 N tasks)
    (h : TbbEvalStencils src srcDesc dst dstDesc sizes offsets indices weights 0 N tasks
      = some dst1)
    (i : Nat) (hi : i < N) (hsz : load sizes (i : Int) = some 0) :
    ∀ k : Nat, (k : Int) < dstDesc.length → load dst1 (rowPos dstDesc i k) = some 0 := by
  intro k hk
  obtain ⟨_, hbnd, hpw, hcov⟩ := isSchedule_props hsched
  rw [TbbEvalStencils_zero] at h
  unfold parallel_for at h
  split at h
  · have hgenK : selectPath
        (startKernel src srcDesc dstDesc sizes offsets indices weights)._srcDesc
        (startKernel src srcDesc dstDesc sizes offsets indices weights)._dstDesc
        = Path.generic := hgen
    obtain ⟨r, hr, hi1, hi2⟩ := hcov i (by omega) (by omega)
    have key := runTasks_rows (startKernel src srcDesc dstDesc sizes offsets indices weights)
      hgenK hds (fun j _ v => load sizes j = some 0 → v = 0) tasks dst dst1 hpw
      (by
        intro t ht m m1 hop j hj1 hj2 q hq
        rw [operator_generic _ hgenK] at hop
        obtain ⟨a, b, c⟩ := hbnd t ht
        obtain ⟨shift, _, _, _, hrows⟩ := genericPath_spec _ hds _ _ _ _ hop b
        obtain ⟨b1, hb1⟩ := Int.eq_ofNat_of_zero_le a
        obtain ⟨d, hd⟩ := Int.eq_ofNat_of_zero_le (show 0 ≤ j - t.1 by omega)
        obtain ⟨sz, hsz1, _, hq1⟩ := hrows d (by omega)
        rw [hb1, startKernel_sizes] at hsz1
        simp only [Ptr.get] at hsz1
        have ej : (b1 : Int) + (d : Int) = j := by omega
        have ej2 : t.1 + (d : Int) = j := by omega
        rw [ej] at hsz1
        rw [ej2] at hq1
        refine ⟨_, (hq1 q hq).2.2, fun h0 => ?_⟩
        rw [h0] at hsz1
        simp only [Option.some.injEq] at hsz1
        subst hsz1
        rfl)
      h r hr i hi1 hi2 k (by simp only [startKernel]; omega)
    obtain ⟨v, hv, hP⟩ := key
    have e : (startKernel src srcDesc dstDesc sizes offsets indices weights)._vertexDst
        + (i : Int)
          * (startKernel src srcDesc dstDesc sizes offsets indices weights)._dstDesc.stride
        + (k : Int) = rowPos dstDesc i k := by
      simp only [startKernel, rowPos]
      ring
    rw [e] at hv
    rw [hv, hP hsz]
  · omega

theorem single_unit_term_row {α : Type} [Semiring α] (src dst : List α)
    (srcDesc dstDesc : VertexBufferDescriptor) (sizes offsets indices : List Int)
    (weights : List α) (N : Nat) (tasks : List (Int × Int)) (dst1 : List α)
    (hgen : selectPath srcDesc dstDesc = Path.generic)
    (hds : dstDesc.length ≤ dstDesc.stride)
    (hrun : RunningSums sizes offsets N)
    (hsched : IsSchedule 0 N tasks)
    (h : TbbEvalStencils src srcDesc dst dstDesc sizes offsets indices weights 0 N tasks
      = some dst1)
    (i : Nat) (hi : i < N) (hsz : sizes.getD i 0 = 1)
    (hw : load weights (offsets.getD i 0) = some 1) :
    ∀ k : Nat, (k : Int) < dstDesc.length →
      load dst1 (rowPos dstDesc i k)
        = load src (rowPos srcDesc (indexAt indices (offsets.getD i 0)) k) := by
  intro k hk
  obtain ⟨_, _, hrows⟩ := evalStencils_rows src dst srcDesc dstDesc sizes offsets indices
    weights N N tasks dst1 hgen hds hrun (le_refl _) hsched h
  obtain ⟨_, _, hterms, hq⟩ := hrows i hi
  rw [(hq k (by omega)).2.2]
  rw [hsz] at hterms
  obtain ⟨idx, wt, hidx, hwt, hsrc⟩ := hterms 0 (by decide)
  simp only [Ptr.get, zero_add, Nat.cast_zero, add_zero] at hidx hwt
  obtain ⟨sv, hsv⟩ := hsrc k (by omega)
  simp only [Ptr.get] at hsv
  have e : rowPos srcDesc (indexAt indices (offsets.getD i 0)) k
      = srcDesc.offset + (idx * srcDesc.stride + (k : Int)) := by
    simp only [rowPos, indexAt, hidx, Option.getD_some]
    ring
  rw [e, hsv]
  simp only [stencilValue, hsz, accum, sourceRow, Ptr.get, zero_add, hidx, hw, hsv,
    Option.getD_some]
  rw [mul_one]

/-! ## The pointers of the dispatcher and of the worker -/

theorem TbbEvalStencils_dispatch {α : Type} [Zero α] [Add α] [Mul α] (src : List α)
    (srcDesc : VertexBufferDescriptor) (dst : List α) (dstDesc : VertexBufferDescriptor)
    (sizes offsets indices : List Int) (weights : List α) (start end_ : Int)
    (tasks : List (Int × Int)) :
    TbbEvalStencils src srcDesc dst dstDesc sizes offsets indices weights start end_ tasks
      = match dispatchKernel src srcDesc dstDesc sizes offsets indices weights start with
        | none => none
        | some K => parallel_for start end_ grain_size tasks K.operator dst := by
  simp only [TbbEvalStencils, dispatchKernel]
  split <;> rfl

theorem genericPath_pointers {α : Type} [Zero α] [Add α] [Mul α] (K : TBBStencilKernel α)
    (rbegin rend : Int) (mem : List α) :
    genericPath K rbegin rend mem
      = match genericPointers K rbegin with
        | none => none
        | some t =>
          if K._srcDesc.length < 0 then none
          else rowLoop K (rend - rbegin).toNat rbegin t.1 t.2.1 t.2.2
            (List.replicate K._srcDesc.length.toNat none) mem := by
  simp only [genericPath, genericPointers]
  split <;> rfl

/-- With `start = 0` only the worker shifts: on a sub-range that begins at
`b ≥ 0` the worker reads the term counts from `sizes[b]` on and the terms from
`offsets[b]` on (from position 0 when `b = 0`). -/
theorem genericPointers_start_zero {α : Type} (src : List α)
    (srcDesc dstDesc : VertexBufferDescriptor) (sizes offsets indices : List Int)
    (weights : List α) (b : Nat) (hb : b < offsets.length) :
    dispatchKernel src srcDesc dstDesc sizes offsets indices weights 0
      = some (startKernel src srcDesc dstDesc sizes offsets indices weights) ∧
    genericPointers (startKernel src srcDesc dstDesc sizes offsets indices weights) (b : Int)
      = some (⟨sizes, (b : Int)⟩, ⟨indices, seqShift offsets b⟩,
          ⟨weights, seqShift offsets b⟩) := by
  refine ⟨by simp [dispatchKernel, startKernel], ?_⟩
  unfold genericPointers seqShift
  by_cases h0 : 0 < b
  · have hI : (b : Int) > 0 := by omega
    simp only [hI, if_true, h0, startKernel, Ptr.get, Ptr.add, zero_add]
    rw [load_of_lt offsets b hb]
  · have hI : ¬ (b : Int) > 0 := by omega
    have hb0 : b = 0 := by omega
    simp only [hI, if_false, h0, startKernel]
    subst hb0
    rfl

/-- With `start > 0` both the dispatcher and the worker shift: on a sub-range
that begins at `b > 0` the worker reads the term counts from `sizes[start + b]`
on and the terms from position `offsets[start] + offsets[b]` on. -/
theorem genericPointers_double_shift {α : Type} (src : List α)
    (srcDesc dstDesc : VertexBufferDescriptor) (sizes offsets indices : List Int)
    (weights : List α) (start b : Int) (hs : 0 < start) (hb : 0 < b) (o1 o2 : Int)
    (h1 : load offsets start = some o1) (h2 : load offsets b = some o2) :
    ∃ K, dispatchKernel src srcDesc dstDesc sizes offsets indices weights start = some K ∧
      genericPointers K b
        = some (⟨sizes, start + b⟩, ⟨indices, o1 + o2⟩, ⟨weights, o1 + o2⟩) := by
  refine ⟨⟨srcDesc, dstDesc, ⟨src, srcDesc.offset⟩, dstDesc.offset, ⟨sizes, start⟩,
    ⟨offsets, 0⟩, ⟨indices, o1⟩, ⟨weights, o1⟩⟩, ?_, ?_⟩
  · simp only [dispatchKernel, gt_iff_lt, hs, if_true, h1]
  · simp only [genericPointers, gt_iff_lt, hb, if_true, Ptr.get, zero_add, h2, Ptr.add]

theorem accum_eq_foldl {α : Type} [Zero α] [Add α] [Mul α] (src : Ptr α)
    (desc : VertexBufferDescriptor) (ind : Ptr Int) (w : Ptr α) (k : Nat) :
    ∀ (n : Nat) (j : Int) (d : α), accum src desc ind w k n j d
      = (List.range n).foldl
          (fun acc t => acc + sourceRow src desc ((ind.get (j + (t : Nat))).getD 0) k
            * (w.get (j + (t : Nat))).getD 0) d := by
  intro n
  induction n with
  | zero => intro j d; rfl
  | succ n ih =>
    intro j d
    simp only [accum]
    rw [ih, List.range_succ_eq_map, List.foldl_cons, List.foldl_map]
    simp only [Nat.cast_zero, add_zero, Nat.succ_eq_add_one, Nat.cast_add, Nat.cast_one]
    have e : ∀ t : Nat, j + 1 + (t : Int) = j + ((t : Int) + 1) := fun t => by ring
    simp only [e]

theorem stencilValue_eq_orderedSum {α : Type} [Zero α] [Add α] [Mul α] (src : List α)
    (srcDesc : VertexBufferDescriptor) (sizes offsets indices : List Int) (weights : List α)
    (i k : Nat) :
    stencilValue src srcDesc sizes offsets indices weights i k
      = orderedSum src srcDesc sizes offsets indices weights i k := by
  unfold stencilValue orderedSum
  rw [accum_eq_foldl]
  have e : ∀ x : Int, srcDesc.offset + (x * srcDesc.stride + (k : Int))
      = x * srcDesc.stride + srcDesc.offset + (k : Int) := fun x => by ring
  simp only [weightAt, indexAt, sourceChannel, sourceRow, Ptr.get, rowPos, zero_add, e]

/-- On the shape `srcLength = 8, srcStride = dstStride = 4` the worker runs the
width-8 primitive, which takes source row 1 at float `1 * 8`, while the
descriptor places it at float `1 * 4`, where the generic branch reads it. -/
theorem width8_on_stride4 :
    (⟨⟨0, 8, 4⟩, ⟨0, 8, 4⟩, ⟨[1, 2, 3, 4, 5, 6, 7, 8, 9, 10, 11, 12, 13, 14, 15, 16], 0⟩, 0,
        ⟨[1], 0⟩, ⟨[0, 1], 0⟩, ⟨[1], 0⟩, ⟨[1], 0⟩⟩ : TBBStencilKernel ℤ).operator (0, 1)
        [0, 0, 0, 0, 0, 0, 0, 0] = some [9, 10, 11, 12, 13, 14, 15, 16] ∧
    genericPath (⟨⟨0, 8, 4⟩, ⟨0, 8, 4⟩,
        ⟨[1, 2, 3, 4, 5, 6, 7, 8, 9, 10, 11, 12, 13, 14, 15, 16], 0⟩, 0,
        ⟨[1], 0⟩, ⟨[0, 1], 0⟩, ⟨[1], 0⟩, ⟨[1], 0⟩⟩ : TBBStencilKernel ℤ) 0 1
        [0, 0, 0, 0, 0, 0, 0, 0] = some [5, 6, 7, 8, 9, 10, 11, 12] := by
  decide

/-- The width-8 branch condition of `TBBStencilKernel::operator()` asks for
stride 4: the shape `srcLength = 8, srcStride = dstStride = 4`, whose rows of 8
floats overlap, selects the width-8 path, and rows tightly packed at width 8
(`srcLength = srcStride = dstStride = 8`) select the generic path. -/
theorem selectPath_width8_shapes :
    selectPath ⟨0, 8, 4⟩ ⟨0, 8, 4⟩ = Path.fixed8 ∧
    rowPos ⟨0, 8, 4⟩ 1 0 < rowPos ⟨0, 8, 4⟩ 0 0 + (⟨0, 8, 4⟩ : VertexBufferDescriptor).length ∧
    selectPath ⟨0, 8, 8⟩ ⟨0, 8, 8⟩ = Path.generic := by
  refine ⟨by decide, by decide, by decide⟩

/-! ## The claims -/

/-- C1 (amended).  Postcondition of `TbbEvalStencils` on the generic path, over
exact arithmetic, for `start = 0` and a table whose offsets are the running
sums of the sizes: for every valid table of `N` stencils, every pair of
descriptors of equal length with destination stride at least the length whose
shape selects the generic path, every `end ≤ N` with the destination rows
`[0, end)` inside the destination buffer, and every schedule of `[0, end)`, the
call returns, and each destination row `i < end` (the values at
`i*dstStride + dstOffset`) holds the weighted sum over `j < sizes[i]` of
`weights[offsets[i]+j] * sourceRow(indices[offsets[i]+j])`. -/
theorem C1_start_zero_weighted_sums {α : Type} [CommSemiring α] (src dst : List α)
    (srcDesc dstDesc : VertexBufferDescriptor) (sizes offsets indices : List Int)
    (weights : List α) (N e : Nat) (tasks : List (Int × Int))
    (hgen : selectPath srcDesc dstDesc = Path.generic)
    (hlen : srcDesc.length = dstDesc.length) (hpos : 0 < srcDesc.length)
    (hds : dstDesc.length ≤ dstDesc.stride)
    (hval : ValidTable src srcDesc sizes offsets indices weights N)
    (hrun : RunningSums sizes offsets N)
    (hdst : ∀ i : Nat, i < e → ValidRow dst dstDesc i)
    (he : e ≤ N) (hsched : IsSchedule 0 e tasks) :
    ∃ dst1, TbbEvalStencils src srcDesc dst dstDesc sizes offsets indices weights 0 e tasks
        = some dst1 ∧
      ∀ i : Nat, i < e → ∀ k : Nat, (k : Int) < dstDesc.length →
        load dst1 (rowPos dstDesc i k)
          = some (weightedSum src srcDesc sizes offsets indices weights i k) := by
  by_cases he0 : e = 0
  · subst he0
    refine ⟨dst, ?_, fun i hi => by omega⟩
    rw [TbbEvalStencils_zero]
    simp [parallel_for]
  · have hD0 : 0 ≤ dstDesc.length := by omega
    obtain ⟨dst1, h⟩ := evalStencils_isSome src dst srcDesc dstDesc sizes offsets indices
      weights N e tasks hgen hD0 (by omega) hval (runningSums_gapped hrun) hdst he hsched
    refine ⟨dst1, h, fun i hi k hk => ?_⟩
    obtain ⟨_, _, hrows⟩ := evalStencils_rows src dst srcDesc dstDesc sizes offsets indices
      weights N e tasks dst1 hgen hds hrun he hsched h
    obtain ⟨_, _, _, hq⟩ := hrows i hi
    rw [(hq k (by omega)).2.2, stencilValue_eq_weightedSum]

/-- Witness of C1 (amended): two stencils over three source rows of length 2. -/
theorem C1_start_zero_weighted_sums_witness :
    ∃ dst1, TbbEvalStencils (α := ℤ) [1, 2, 3, 4, 5, 6] ⟨0, 2, 2⟩ [0, 0, 0, 0] ⟨0, 2, 2⟩
        [2, 1] [0, 2, 3] [0, 1, 2] [1, 1, 1] 0 2 [(0, 2)] = some dst1 ∧
      ∀ i : Nat, i < 2 → ∀ k : Nat, (k : Int) < (⟨0, 2, 2⟩ : VertexBufferDescriptor).length →
        load dst1 (rowPos ⟨0, 2, 2⟩ i k)
          = some (weightedSum (α := ℤ) [1, 2, 3, 4, 5, 6] ⟨0, 2, 2⟩ [2, 1] [0, 2, 3] [0, 1, 2]
              [1, 1, 1] i k) :=
  C1_start_zero_weighted_sums (α := ℤ) [1, 2, 3, 4, 5, 6] [0, 0, 0, 0] ⟨0, 2, 2⟩ ⟨0, 2, 2⟩
    [2, 1] [0, 2, 3] [0, 1, 2] [1, 1, 1] 2 2 [(0, 2)] (by decide) (by decide) (by decide)
    (by decide) (by decide) (by decide) (by decide) (by decide)
    ⟨[(0, 2)], by decide, List.Perm.refl _⟩

/-- Counterexample to C1 as stated, at two inputs with valid indices and
descriptors of length 1 and stride 1.  (a) `start = 0`, offsets `[0, 2]` with
a gap after the single term of stencil 0: the call leaves `20` in row 1, the
claimed sum is `30`.  (b) `start = 1` on a table whose offsets are the running
sums of the sizes: the call leaves `30` in row 1, the claimed sum is `20`. -/
theorem C1_counterexample :
    (ValidTable (α := ℤ) [10, 20, 30] ⟨0, 1, 1⟩ [1, 1] [0, 2] [0, 1, 2] [1, 1, 1] 2 ∧
      IsSplit 0 2 [(0, 2)] ∧
      TbbEvalStencils (α := ℤ) [10, 20, 30] ⟨0, 1, 1⟩ [0, 0] ⟨0, 1, 1⟩
        [1, 1] [0, 2] [0, 1, 2] [1, 1, 1] 0 2 [(0, 2)] = some [10, 20] ∧
      weightedSum (α := ℤ) [10, 20, 30] ⟨0, 1, 1⟩ [1, 1] [0, 2] [0, 1, 2] [1, 1, 1] 1 0 = 30) ∧
    (ValidTable (α := ℤ) [10, 20, 30] ⟨0, 1, 1⟩ [1, 1, 1] [0, 1, 2, 3] [0, 1, 2] [1, 1, 1] 3 ∧
      RunningSums [1, 1, 1] [0, 1, 2, 3] 3 ∧
      IsSplit 1 2 [(1, 2)] ∧
      TbbEvalStencils (α := ℤ) [10, 20, 30] ⟨0, 1, 1⟩ [0, 0, 0] ⟨0, 1, 1⟩
        [1, 1, 1] [0, 1, 2, 3] [0, 1, 2] [1, 1, 1] 1 2 [(1, 2)] = some [0, 30, 0] ∧
      weightedSum (α := ℤ) [10, 20, 30] ⟨0, 1, 1⟩ [1, 1, 1] [0, 1, 2, 3] [0, 1, 2] [1, 1, 1]
        1 0 = 20) := by
  decide

/-- C2 (code defect).  Range splitting at `N = 2`, `k = 1`, on a table whose
offsets are the running sums of the sizes: the single call on `(0, 2)` leaves
`[10, 20]`; the call on `(0, 1)` leaves `[10, 0]`, and the following call on
`(1, 2)` reads `sizes[2]`, past the end of the table, because the dispatcher and
the worker both advance the pointers by `start`. -/
theorem C2_split_calls_diverge :
    ValidTable (α := ℤ) [10, 20] ⟨0, 1, 1⟩ [1, 1] [0, 1, 2] [0, 1] [1, 1] 2 ∧
    RunningSums [1, 1] [0, 1, 2] 2 ∧
    TbbEvalStencils (α := ℤ) [10, 20] ⟨0, 1, 1⟩ [0, 0] ⟨0, 1, 1⟩
      [1, 1] [0, 1, 2] [0, 1] [1, 1] 0 2 [(0, 2)] = some [10, 20] ∧
    TbbEvalStencils (α := ℤ) [10, 20] ⟨0, 1, 1⟩ [0, 0] ⟨0, 1, 1⟩
      [1, 1] [0, 1, 2] [0, 1] [1, 1] 0 1 [(0, 1)] = some [10, 0] ∧
    TbbEvalStencils (α := ℤ) [10, 20] ⟨0, 1, 1⟩ [10, 0] ⟨0, 1, 1⟩
      [1, 1] [0, 1, 2] [0, 1] [1, 1] 1 2 [(1, 2)] = none ∧
    (⟨[1, 1], 1 + 1⟩ : Ptr Int).get 0 = none ∧
    TbbEvalStencils (α := ℤ) [10, 20, 30] ⟨0, 1, 1⟩ [0, 0, 0] ⟨0, 1, 1⟩
      [1, 1, 1] [0, 1, 2, 3] [0, 1, 2] [1, 1, 1] 0 2 [(0, 2)] = some [10, 20, 0] ∧
    TbbEvalStencils (α := ℤ) [10, 20, 30] ⟨0, 1, 1⟩ [0, 0, 0] ⟨0, 1, 1⟩
      [1, 1, 1] [0, 1, 2, 3] [0, 1, 2] [1, 1, 1] 0 1 [(0, 1)] = some [10, 0, 0] ∧
    TbbEvalStencils (α := ℤ) [10, 20, 30] ⟨0, 1, 1⟩ [10, 0, 0] ⟨0, 1, 1⟩
      [1, 1, 1] [0, 1, 2, 3] [0, 1, 2] [1, 1, 1] 1 2 [(1, 2)] = some [10, 30, 0] := by
  decide

/-- C3.  Frame of the destination buffer: for every call of `TbbEvalStencils`
on the generic path with `start ≤ end` that returns, under every schedule of
`[start, end)`, the destination buffer keeps its length, and every destination
float whose position is not inside a row window
`[i*dstStride + dstOffset, i*dstStride + dstOffset + dstLength)` of a row `i`
with `start ≤ i < end` has the same value after the call as before it. -/
theorem C3_destination_frame {α : Type} [Zero α] [Add α] [Mul α] (src dst : List α)
    (srcDesc dstDesc : VertexBufferDescriptor) (sizes offsets indices : List Int)
    (weights : List α) (start end_ : Int) (tasks : List (Int × Int)) (dst1 : List α)
    (hgen : selectPath srcDesc dstDesc = Path.generic)
    (hsched : IsSchedule start end_ tasks)
    (h : TbbEvalStencils src srcDesc dst dstDesc sizes offsets indices weights start end_ tasks
      = some dst1) :
    dst1.length = dst.length ∧
    ∀ p : Int, (∀ i : Int, start ≤ i → i < end_ →
        ¬ (i * dstDesc.stride + dstDesc.offset ≤ p ∧
            p < i * dstDesc.stride + dstDesc.offset + dstDesc.length)) →
      load dst1 p = load dst p := by
  obtain ⟨_, hbnd, _, _⟩ := isSchedule_props hsched
  obtain ⟨K, hK1, hK2, _, hK4, hpar⟩ := TbbEvalStencils_kernel _ _ _ _ _ _ _ _ _ _ _ _ h
  unfold parallel_for at hpar
  split at hpar
  · obtain ⟨hl, hf⟩ := runTasks_frame K (by rw [hK1, hK2]; exact hgen) _ _ _ hpar
    refine ⟨hl, fun p hp => hf p ?_⟩
    intro r hr i hi1 hi2 q hq heq
    obtain ⟨a, b, c⟩ := hbnd r hr
    apply hp i (by omega) (by omega)
    rw [hK2, hK4] at heq
    rw [hK2] at hq
    omega
  · simp only [Option.some.injEq] at hpar
    subst hpar
    exact ⟨rfl, fun p _ => rfl⟩

/-- Witness of C3, at two calls that return.  (a) The interleaved layout
`stride = 6, length = 4, offset = 1` on both buffers, two rows, `start = 0`: the
padding of the destination keeps the value 7.  (b) `start = 1`, `end = 2` on
three rows of length 1: rows 0 and 2 keep the value 7. -/
theorem C3_destination_frame_witness :
    (([7, 21, 22, 23, 24, 7, 7, 11, 12, 13, 14, 7] : List ℤ).length
        = ([7, 7, 7, 7, 7, 7, 7, 7, 7, 7, 7, 7] : List ℤ).length ∧
      ∀ p : Int, (∀ i : Int, 0 ≤ i → i < 2 →
          ¬ (i * (⟨1, 4, 6⟩ : VertexBufferDescriptor).stride
                + (⟨1, 4, 6⟩ : VertexBufferDescriptor).offset ≤ p ∧
              p < i * (⟨1, 4, 6⟩ : VertexBufferDescriptor).stride
                + (⟨1, 4, 6⟩ : VertexBufferDescriptor).offset
                + (⟨1, 4, 6⟩ : VertexBufferDescriptor).length)) →
        load ([7, 21, 22, 23, 24, 7, 7, 11, 12, 13, 14, 7] : List ℤ) p
          = load ([7, 7, 7, 7, 7, 7, 7, 7, 7, 7, 7, 7] : List ℤ) p) ∧
    (([7, 30, 7] : List ℤ).length = ([7, 7, 7] : List ℤ).length ∧
      ∀ p : Int, (∀ i : Int, 1 ≤ i → i < 2 →
          ¬ (i * (⟨0, 1, 1⟩ : VertexBufferDescriptor).stride
                + (⟨0, 1, 1⟩ : VertexBufferDescriptor).offset ≤ p ∧
              p < i * (⟨0, 1, 1⟩ : VertexBufferDescriptor).stride
                + (⟨0, 1, 1⟩ : VertexBufferDescriptor).offset
                + (⟨0, 1, 1⟩ : VertexBufferDescriptor).length)) →
        load ([7, 30, 7] : List ℤ) p = load ([7, 7, 7] : List ℤ) p) :=
  ⟨C3_destination_frame (α := ℤ) [0, 11, 12, 13, 14, 0, 0, 21, 22, 23, 24, 0]
      [7, 7, 7, 7, 7, 7, 7, 7, 7, 7, 7, 7] ⟨1, 4, 6⟩ ⟨1, 4, 6⟩ [1, 1] [0, 1, 2] [1, 0] [1, 1]
      0 2 [(0, 2)] [7, 21, 22, 23, 24, 7, 7, 11, 12, 13, 14, 7] (by decide)
      ⟨[(0, 2)], by decide, List.Perm.refl _⟩ (by decide),
    C3_destination_frame (α := ℤ) [10, 20, 30] [7, 7, 7] ⟨0, 1, 1⟩ ⟨0, 1, 1⟩ [1, 1, 1]
      [0, 1, 2, 3] [0, 1, 2] [1, 1, 1] 1 2 [(1, 2)] [7, 30, 7] (by decide)
      ⟨[(1, 2)], by decide, List.Perm.refl _⟩ (by decide)⟩

/-- C4.  Concrete scenario: source rows `[1,2],[3,4],[5,6]` (length 2, stride
2, offset 0), a destination descriptor of the same shape, `sizes = [2,1]`,
`offsets = [0,2]`, `indices = [0,1,2]`, `weights = [1/2,1/2,1]`: for every
destination buffer of at least four floats and every schedule of `[0, 2)`, the
call `TbbEvalStencils(..., start=0, end=2)` returns and leaves destination row 0
equal to `[2,3]` and destination row 1 equal to `[5,6]`. -/
theorem C4_concrete_scenario (dst : List ℚ) (tasks : List (Int × Int))
    (hdst : 4 ≤ dst.length) (hsched : IsSchedule 0 2 tasks) :
    ∃ dst1, TbbEvalStencils (α := ℚ) [1, 2, 3, 4, 5, 6] ⟨0, 2, 2⟩ dst ⟨0, 2, 2⟩
        [2, 1] [0, 2] [0, 1, 2] [1 / 2, 1 / 2, 1] 0 2 tasks = some dst1 ∧
      load dst1 0 = some 2 ∧ load dst1 1 = some 3 ∧
      load dst1 2 = some 5 ∧ load dst1 3 = some 6 := by
  have hgen : selectPath ⟨0, 2, 2⟩ ⟨0, 2, 2⟩ = Path.generic := by decide
  have hrun : RunningSums [2, 1] [0, 2] 2 := by decide
  have hval : ValidTable (α := ℚ) [1, 2, 3, 4, 5, 6] ⟨0, 2, 2⟩ [2, 1] [0, 2] [0, 1, 2]
      [1 / 2, 1 / 2, 1] 2 := by decide
  have hrows : ∀ i : Nat, i < 2 → ValidRow dst ⟨0, 2, 2⟩ i := by
    intro i hi
    simp only [ValidRow]
    omega
  obtain ⟨dst1, h⟩ := evalStencils_isSome (α := ℚ) [1, 2, 3, 4, 5, 6] dst ⟨0, 2, 2⟩ ⟨0, 2, 2⟩
    [2, 1] [0, 2] [0, 1, 2] [1 / 2, 1 / 2, 1] 2 2 tasks hgen (by decide) (by decide) hval
    (runningSums_gapped hrun) hrows (le_refl _) hsched
  obtain ⟨_, _, hr⟩ := evalStencils_rows (α := ℚ) [1, 2, 3, 4, 5, 6] dst ⟨0, 2, 2⟩ ⟨0, 2, 2⟩
    [2, 1] [0, 2] [0, 1, 2] [1 / 2, 1 / 2, 1] 2 2 tasks dst1 hgen (by decide) hrun (le_refl _)
    hsched h
  obtain ⟨_, _, _, hq0⟩ := hr 0 (by decide)
  obtain ⟨_, _, _, hq1⟩ := hr 1 (by decide)
  have a0 := (hq0 0 (by decide)).2.2
  have a1 := (hq0 1 (by decide)).2.2
  have a2 := (hq1 0 (by decide)).2.2
  have a3 := (hq1 1 (by decide)).2.2
  refine ⟨dst1, h, ?_, ?_, ?_, ?_⟩
  · rw [show (0 : Int) = rowPos ⟨0, 2, 2⟩ ((0 : Nat) : Int) 0 by simp [rowPos], a0]
    have v : stencilValue (α := ℚ) [1, 2, 3, 4, 5, 6] ⟨0, 2, 2⟩ [2, 1] [0, 2] [0, 1, 2]
        [1 / 2, 1 / 2, 1] 0 0 = 0 + 1 * (1 / 2) + 3 * (1 / 2) := rfl
    rw [v]; norm_num
  · rw [show (1 : Int) = rowPos ⟨0, 2, 2⟩ ((0 : Nat) : Int) 1 by simp [rowPos], a1]
    have v : stencilValue (α := ℚ) [1, 2, 3, 4, 5, 6] ⟨0, 2, 2⟩ [2, 1] [0, 2] [0, 1, 2]
        [1 / 2, 1 / 2, 1] 0 1 = 0 + 2 * (1 / 2) + 4 * (1 / 2) := rfl
    rw [v]; norm_num
  · rw [show (2 : Int) = rowPos ⟨0, 2, 2⟩ ((1 : Nat) : Int) 0 by simp [rowPos], a2]
    have v : stencilValue (α := ℚ) [1, 2, 3, 4, 5, 6] ⟨0, 2, 2⟩ [2, 1] [0, 2] [0, 1, 2]
        [1 / 2, 1 / 2, 1] 1 0 = 0 + 5 * 1 := rfl
    rw [v]; norm_num
  · rw [show (3 : Int) = rowPos ⟨0, 2, 2⟩ ((1 : Nat) : Int) 1 by simp [rowPos], a3]
    have v : stencilValue (α := ℚ) [1, 2, 3, 4, 5, 6] ⟨0, 2, 2⟩ [2, 1] [0, 2] [0, 1, 2]
        [1 / 2, 1 / 2, 1] 1 1 = 0 + 6 * 1 := rfl
    rw [v]; norm_num

/-- Witness of C4: the destination `[0, 0, 0, 0]` and the single sub-range
`[0, 2)`. -/
theorem C4_concrete_scenario_witness :
    ∃ dst1, TbbEvalStencils (α := ℚ) [1, 2, 3, 4, 5, 6] ⟨0, 2, 2⟩ [0, 0, 0, 0] ⟨0, 2, 2⟩
        [2, 1] [0, 2] [0, 1, 2] [1 / 2, 1 / 2, 1] 0 2 [(0, 2)] = some dst1 ∧
      load dst1 0 = some 2 ∧ load dst1 1 = some 3 ∧
      load dst1 2 = some 5 ∧ load dst1 3 = some 6 :=
  C4_concrete_scenario [0, 0, 0, 0] [(0, 2)] (by decide)
    ⟨[(0, 2)], by decide, List.Perm.refl _⟩

/-- C5 (amended).  For every valid table whose offsets are the running sums of
the sizes (`offsets[0] = 0`, `offsets[i+1] = offsets[i] + sizes[i]`: no gap
between consecutive stencils), every pair of descriptors on the generic path
with `0 ≤ dstLength ≤ srcLength` and `dstLength ≤ dstStride`, and every call with
`start = 0` and `end ≤ N` under every schedule, the call returns and each
destination row `i` in `[0, end)` holds, on every channel, the sum of the
`sizes[i]` terms located at positions `offsets[i] .. offsets[i]+sizes[i]-1` of
`indices`/`weights`, added in term order. -/
theorem C5_offsets_running_sums {α : Type} [Zero α] [Add α] [Mul α] (src dst : List α)
    (srcDesc dstDesc : VertexBufferDescriptor) (sizes offsets indices : List Int)
    (weights : List α) (N e : Nat) (tasks : List (Int × Int))
    (hgen : selectPath srcDesc dstDesc = Path.generic)
    (hD0 : 0 ≤ dstDesc.length) (hDL : dstDesc.length ≤ srcDesc.length)
    (hds : dstDesc.length ≤ dstDesc.stride)
    (hval : ValidTable src srcDesc sizes offsets indices weights N)
    (hrun : RunningSums sizes offsets N)
    (hdst : ∀ i : Nat, i < e → ValidRow dst dstDesc i)
    (he : e ≤ N) (hsched : IsSchedule 0 e tasks) :
    ∃ dst1, TbbEvalStencils src srcDesc dst dstDesc sizes offsets indices weights 0 e tasks
        = some dst1 ∧
      ∀ i : Nat, i < e → ∀ k : Nat, (k : Int) < dstDesc.length →
        load dst1 (rowPos dstDesc i k)
          = some (stencilValue src srcDesc sizes offsets indices weights i k) := by
  obtain ⟨dst1, h⟩ := evalStencils_isSome src dst srcDesc dstDesc sizes offsets indices
    weights N e tasks hgen hD0 (by omega) hval (runningSums_gapped hrun) hdst he hsched
  refine ⟨dst1, h, fun i hi k hk => ?_⟩
  obtain ⟨_, _, hrows⟩ := evalStencils_rows src dst srcDesc dstDesc sizes offsets indices
    weights N e tasks dst1 hgen hds hrun he hsched h
  obtain ⟨_, _, _, hq⟩ := hrows i hi
  exact (hq k (by omega)).2.2

/-- Witness of C5 (amended): two stencils without gap, run as two sub-ranges in
reverse order. -/
theorem C5_offsets_running_sums_witness :
    ∃ dst1, TbbEvalStencils (α := ℤ) [10, 20, 30, 40] ⟨0, 1, 1⟩ [0, 0] ⟨0, 1, 1⟩
        [2, 1] [0, 2, 3] [0, 1, 3] [1, 1, 1] 0 2 [(1, 2), (0, 1)] = some dst1 ∧
      ∀ i : Nat, i < 2 → ∀ k : Nat, (k : Int) < (⟨0, 1, 1⟩ : VertexBufferDescriptor).length →
        load dst1 (rowPos ⟨0, 1, 1⟩ i k)
          = some (stencilValue (α := ℤ) [10, 20, 30, 40] ⟨0, 1, 1⟩ [2, 1] [0, 2, 3] [0, 1, 3]
              [1, 1, 1] i k) :=
  C5_offsets_running_sums (α := ℤ) [10, 20, 30, 40] [0, 0] ⟨0, 1, 1⟩ ⟨0, 1, 1⟩
    [2, 1] [0, 2, 3] [0, 1, 3] [1, 1, 1] 2 2 [(1, 2), (0, 1)] (by decide) (by decide)
    (by decide) (by decide) (by decide) (by decide) (by decide) (by decide)
    ⟨[(0, 1), (1, 2)], by decide, List.Perm.swap _ _ _⟩

/-- Counterexample to C5 as stated: `sizes = [2, 1]`, `offsets = [0, 3]` (a gap
of one unused term between the stencils), whole-table call with `start = 0`.
The terms of stencil 1 located by `offsets[1] = 3` give `40`; the call leaves
`30` in row 1, the value of the term at position 2. -/
theorem C5_counterexample :
    ValidTable (α := ℤ) [10, 20, 30, 40] ⟨0, 1, 1⟩ [2, 1] [0, 3] [0, 1, 2, 3] [1, 1, 1, 1] 2 ∧
    IsSplit 0 2 [(0, 2)] ∧
    TbbEvalStencils (α := ℤ) [10, 20, 30, 40] ⟨0, 1, 1⟩ [0, 0] ⟨0, 1, 1⟩
      [2, 1] [0, 3] [0, 1, 2, 3] [1, 1, 1, 1] 0 2 [(0, 2)] = some [30, 30] ∧
    stencilValue (α := ℤ) [10, 20, 30, 40] ⟨0, 1, 1⟩ [2, 1] [0, 3] [0, 1, 2, 3] [1, 1, 1, 1]
      1 0 = 40 := by
  decide

/-- C6.  Empty stencil: for every whole-table call on the generic path
(`start = 0`, `end = N`) on a valid table of `N` stencils (offsets monotonic,
gaps allowed), with `0 ≤ dstLength ≤ srcLength` (equal lengths in particular),
destination stride at least the destination length and the destination rows
inside the destination buffer, under every schedule, the call returns, and for
every `i < N` with `sizes[i] = 0` every channel of destination row `i` is `0`
after the call, whatever the destination held before and whatever the other
stencils are. -/
theorem C6_empty_stencil {α : Type} [Zero α] [Add α] [Mul α] (src dst : List α)
    (srcDesc dstDesc : VertexBufferDescriptor) (sizes offsets indices : List Int)
    (weights : List α) (N : Nat) (tasks : List (Int × Int))
    (hgen : selectPath srcDesc dstDesc = Path.generic)
    (hD0 : 0 ≤ dstDesc.length) (hDL : dstDesc.length ≤ srcDesc.length)
    (hds : dstDesc.length ≤ dstDesc.stride)
    (hval : ValidTable src srcDesc sizes offsets indices weights N)
    (hgap : GappedOffsets sizes offsets N)
    (hdst : ∀ i : Nat, i < N → ValidRow dst dstDesc i)
    (hsched : IsSchedule 0 N tasks)
    (i : Nat) (hi : i < N) (hsz : sizes.getD i 0 = 0) :
    ∃ dst1, TbbEvalStencils src srcDesc dst dstDesc sizes offsets indices weights 0 N tasks
        = some dst1 ∧
      ∀ k : Nat, (k : Int) < dstDesc.length → load dst1 (rowPos dstDesc i k) = some 0 := by
  obtain ⟨dst1, h⟩ := evalStencils_isSome src dst srcDesc dstDesc sizes offsets indices
    weights N N tasks hgen hD0 hDL hval hgap hdst (le_refl _) hsched
  refine ⟨dst1, h, ?_⟩
  have hload : load sizes (i : Int) = some 0 := by
    rw [← hsz]
    exact load_of_lt sizes i (by have := hval.1; omega)
  exact empty_stencil_row src dst srcDesc dstDesc sizes offsets indices weights N tasks dst1
    hgen hds hsched h i hi hload

/-- Witness of C6: the second of three stencils is empty; its row, which held
`9, 9`, is zero after the call. -/
theorem C6_empty_stencil_witness :
    ∃ dst1, TbbEvalStencils (α := ℤ) [1, 2, 3, 4] ⟨0, 2, 2⟩ [9, 9, 9, 9, 9, 9] ⟨0, 2, 2⟩
        [1, 0, 1] [0, 1, 1, 2] [0, 1] [1, 1] 0 (3 : Nat) [(0, 3)] = some dst1 ∧
      ∀ k : Nat, (k : Int) < (⟨0, 2, 2⟩ : VertexBufferDescriptor).length →
        load dst1 (rowPos ⟨0, 2, 2⟩ (1 : Nat) k) = some 0 :=
  C6_empty_stencil (α := ℤ) [1, 2, 3, 4] [9, 9, 9, 9, 9, 9] ⟨0, 2, 2⟩ ⟨0, 2, 2⟩ [1, 0, 1]
    [0, 1, 1, 2] [0, 1] [1, 1] 3 [(0, 3)] (by decide) (by decide) (by decide) (by decide)
    (by decide) (by decide) (by decide) ⟨[(0, 3)], by decide, List.Perm.refl _⟩ 1 (by decide)
    (by decide)

/-- C7.  Single unit-weight term: for every whole-table call on the generic
path (`start = 0`, `end = N`) on a valid table of `N` stencils whose offsets are
the running sums of the sizes, with `0 ≤ dstLength ≤ srcLength` (descriptors of
equal length `L` in particular), destination stride at least the destination
length and the destination rows inside the destination buffer, under every
schedule, the call returns, and for every `i < N` with `sizes[i] = 1` and
`weights[offsets[i]] = 1` destination row `i` after the call equals, channel for
channel, source row `indices[offsets[i]]` (the values at
`indices[offsets[i]]*srcStride + srcOffset`). -/
theorem C7_single_unit_term {α : Type} [Semiring α] (src dst : List α)
    (srcDesc dstDesc : VertexBufferDescriptor) (sizes offsets indices : List Int)
    (weights : List α) (N : Nat) (tasks : List (Int × Int))
    (hgen : selectPath srcDesc dstDesc = Path.generic)
    (hD0 : 0 ≤ dstDesc.length) (hDL : dstDesc.length ≤ srcDesc.length)
    (hds : dstDesc.length ≤ dstDesc.stride)
    (hval : ValidTable src srcDesc sizes offsets indices weights N)
    (hrun : RunningSums sizes offsets N)
    (hdst : ∀ i : Nat, i < N → ValidRow dst dstDesc i)
    (hsched : IsSchedule 0 N tasks)
    (i : Nat) (hi : i < N) (hsz : sizes.getD i 0 = 1)
    (hw : load weights (offsets.getD i 0) = some 1) :
    ∃ dst1, TbbEvalStencils src srcDesc dst dstDesc sizes offsets indices weights 0 N tasks
        = some dst1 ∧
      ∀ k : Nat, (k : Int) < dstDesc.length →
        load dst1 (rowPos dstDesc i k)
          = load src (rowPos srcDesc (indexAt indices (offsets.getD i 0)) k) := by
  obtain ⟨dst1, h⟩ := evalStencils_isSome src dst srcDesc dstDesc sizes offsets indices
    weights N N tasks hgen hD0 hDL hval (runningSums_gapped hrun) hdst (le_refl _) hsched
  exact ⟨dst1, h, single_unit_term_row src dst srcDesc dstDesc sizes offsets indices weights N
    tasks dst1 hgen hds hrun hsched h i hi hsz hw⟩

/-- Witness of C7: stencil 1 is the single term `(2, 1)`; its row equals source
row 2. -/
theorem C7_single_unit_term_witness :
    ∃ dst1, TbbEvalStencils (α := ℤ) [1, 2, 3, 4, 5, 6] ⟨0, 2, 2⟩ [0, 0, 0, 0] ⟨0, 2, 2⟩
        [2, 1] [0, 2, 3] [0, 1, 2] [1, 1, 1] 0 (2 : Nat) [(0, 2)] = some dst1 ∧
      ∀ k : Nat, (k : Int) < (⟨0, 2, 2⟩ : VertexBufferDescriptor).length →
        load dst1 (rowPos ⟨0, 2, 2⟩ (1 : Nat) k)
          = load ([1, 2, 3, 4, 5, 6] : List ℤ)
              (rowPos ⟨0, 2, 2⟩ (indexAt [0, 1, 2] (([0, 2, 3] : List Int).getD 1 0)) k) :=
  C7_single_unit_term (α := ℤ) [1, 2, 3, 4, 5, 6] [0, 0, 0, 0] ⟨0, 2, 2⟩ ⟨0, 2, 2⟩ [2, 1]
    [0, 2, 3] [0, 1, 2] [1, 1, 1] 2 [(0, 2)] (by decide) (by decide) (by decide) (by decide)
    (by decide) (by decide) (by decide) ⟨[(0, 2)], by decide, List.Perm.refl _⟩ 1 (by decide)
    (by decide) (by decide)

/-- C8.  Only the row windows of the source are read: for every call on the
generic path and every two source buffers that agree on every row window
`[r*srcStride + srcOffset, r*srcStride + srcOffset + srcLength)`, the two runs
on the same table, range, schedule and initial destination give the same
result. -/
theorem C8_source_windows_only {α : Type} [Zero α] [Add α] [Mul α] (src1 src2 dst : List α)
    (srcDesc dstDesc : VertexBufferDescriptor) (sizes offsets indices : List Int)
    (weights : List α) (start end_ : Int) (tasks : List (Int × Int))
    (hgen : selectPath srcDesc dstDesc = Path.generic)
    (hsrc : ∀ (r : Int) (k : Nat), (k : Int) < srcDesc.length →
      load src1 (rowPos srcDesc r k) = load src2 (rowPos srcDesc r k)) :
    TbbEvalStencils src1 srcDesc dst dstDesc sizes offsets indices weights start end_ tasks
      = TbbEvalStencils src2 srcDesc dst dstDesc sizes offsets indices weights start end_
          tasks := by
  simp only [TbbEvalStencils]
  split
  · rfl
  · unfold parallel_for
    split
    · apply runTasks_congr
      intro r mem
      rw [operator_generic _ hgen, operator_generic _ hgen]
      simp only [genericPath]
      split
      · rfl
      · split
        · rfl
        · apply rowLoop_congr
          intro r k hk
          have := hsrc r k hk
          simp only [rowPos] at this
          have e : srcDesc.offset + r * srcDesc.stride + (k : Int)
              = r * srcDesc.stride + srcDesc.offset + (k : Int) := by ring
          simp only [e]
          exact this
    · rfl

/-- Witness of C8: the layout `stride = 6, length = 4, offset = 1`; the two
source buffers differ in the padding only. -/
theorem C8_source_windows_only_witness :
    TbbEvalStencils (α := ℤ) [0, 11, 12, 13, 14, 0, 0, 21, 22, 23, 24, 0] ⟨1, 4, 6⟩
        [7, 7, 7, 7, 7, 7, 7, 7, 7, 7, 7, 7] ⟨1, 4, 6⟩ [1, 1] [0, 1, 2] [1, 0] [1, 1] 0 2
        [(0, 2)]
      = TbbEvalStencils (α := ℤ) [5, 11, 12, 13, 14, 6, 8, 21, 22, 23, 24, 9] ⟨1, 4, 6⟩
        [7, 7, 7, 7, 7, 7, 7, 7, 7, 7, 7, 7] ⟨1, 4, 6⟩ [1, 1] [0, 1, 2] [1, 0] [1, 1] 0 2
        [(0, 2)] :=
  C8_source_windows_only (α := ℤ) [0, 11, 12, 13, 14, 0, 0, 21, 22, 23, 24, 0]
    [5, 11, 12, 13, 14, 6, 8, 21, 22, 23, 24, 9] [7, 7, 7, 7, 7, 7, 7, 7, 7, 7, 7, 7]
    ⟨1, 4, 6⟩ ⟨1, 4, 6⟩ [1, 1] [0, 1, 2] [1, 0] [1, 1] 0 2 [(0, 2)] (by decide)
    (by
      intro r k hk
      have hk4 : k < 4 := by
        have : (k : Int) < 4 := hk
        omega
      by_cases h0 : r < 0
      · have hp : rowPos ⟨1, 4, 6⟩ r k < 0 := by simp only [rowPos]; omega
        simp [load, hp]
      · by_cases h2 : 2 ≤ r
        · have hp : 12 ≤ (rowPos ⟨1, 4, 6⟩ r k).toNat := by simp only [rowPos]; omega
          have hp0 : ¬ rowPos ⟨1, 4, 6⟩ r k < 0 := by simp only [rowPos]; omega
          simp only [load, hp0, if_false]
          rw [List.getElem?_eq_none (by simpa using hp),
            List.getElem?_eq_none (by simpa using hp)]
        · have hr : r = 0 ∨ r = 1 := by omega
          rcases hr with rfl | rfl <;> interval_cases k <;> decide)

/-- C9 (amended).  Independence from partitioning, for `start = 0` and a table
whose offsets are the running sums of the sizes: for every such valid table,
every pair of descriptors on the generic path with `dstLength ≤ dstStride`,
every `end ≤ N` with the destination rows `[0, end)` inside the destination
buffer, and every two ways of splitting `[0, end)` into contiguous non-empty
sub-ranges, running the worker over the sub-ranges of the first split, in any
order, gives the same result as running it over the sub-ranges of the second
split, in any order. -/
theorem C9_partition_independent {α : Type} [Zero α] [Add α] [Mul α] (src dst : List α)
    (srcDesc dstDesc : VertexBufferDescriptor) (sizes offsets indices : List Int)
    (weights : List α) (N e : Nat) (tasks1 tasks2 : List (Int × Int))
    (hgen : selectPath srcDesc dstDesc = Path.generic)
    (hds : dstDesc.length ≤ dstDesc.stride)
    (hval : ValidTable src srcDesc sizes offsets indices weights N)
    (hrun : RunningSums sizes offsets N)
    (hdst : ∀ i : Nat, i < e → ValidRow dst dstDesc i)
    (he : e ≤ N) (h1 : IsSchedule 0 e tasks1) (h2 : IsSchedule 0 e tasks2) :
    TbbEvalStencils src srcDesc dst dstDesc sizes offsets indices weights 0 e tasks1
      = TbbEvalStencils src srcDesc dst dstDesc sizes offsets indices weights 0 e tasks2 := by
  have key : ∀ ta tb : List (Int × Int), IsSchedule 0 e ta → IsSchedule 0 e tb →
      ∀ d, TbbEvalStencils src srcDesc dst dstDesc sizes offsets indices weights 0 e ta = some d →
        TbbEvalStencils src srcDesc dst dstDesc sizes offsets indices weights 0 e tb
          = some d := by
    intro ta tb hsa hsb d hd
    by_cases he0 : e = 0
    · subst he0
      rw [TbbEvalStencils_zero] at hd ⊢
      simp only [parallel_for, Nat.cast_zero, lt_self_iff_false, if_false] at hd ⊢
      exact hd
    · obtain ⟨hla, hfa, hra⟩ := evalStencils_rows src dst srcDesc dstDesc sizes offsets
        indices weights N e ta d hgen hds hrun he hsa hd
      obtain ⟨⟨hD0, hDL⟩, _⟩ := hra 0 (by omega)
      obtain ⟨d1, hd1⟩ := evalStencils_isSome src dst srcDesc dstDesc sizes offsets indices
        weights N e tb hgen hD0 hDL hval (runningSums_gapped hrun) hdst he hsb
      obtain ⟨hlb, hfb, hrb⟩ := evalStencils_rows src dst srcDesc dstDesc sizes offsets
        indices weights N e tb d1 hgen hds hrun he hsb hd1
      have hdd : d1 = d := by
        apply load_ext
        intro p
        by_cases hp : ∃ i q : Nat, i < e ∧ q < dstDesc.length.toNat ∧ p = rowPos dstDesc i q
        · obtain ⟨i, q, hi, hq, rfl⟩ := hp
          rw [((hrb i hi).2.2.2 q hq).2.2, ((hra i hi).2.2.2 q hq).2.2]
        · rw [hfb p (fun i hi q hq heq => hp ⟨i, q, hi, hq, heq⟩),
            hfa p (fun i hi q hq heq => hp ⟨i, q, hi, hq, heq⟩)]
      rw [hd1, hdd]
  cases h : TbbEvalStencils src srcDesc dst dstDesc sizes offsets indices weights 0 e tasks1 with
  | some d => exact (key tasks1 tasks2 h1 h2 d h).symm
  | none =>
    cases h3 : TbbEvalStencils src srcDesc dst dstDesc sizes offsets indices weights 0 e
      tasks2 with
    | none => rfl
    | some d =>
      have := key tasks2 tasks1 h2 h1 d h3
      rw [h] at this
      simp at this

/-- Witness of C9 (amended): three stencils, run as one sub-range and as three
sub-ranges in the order 2, 0, 1. -/
theorem C9_partition_independent_witness :
    TbbEvalStencils (α := ℤ) [10, 20, 30, 40] ⟨0, 1, 1⟩ [0, 0, 0] ⟨0, 1, 1⟩
        [2, 1, 1] [0, 2, 3, 4] [0, 1, 3, 2] [1, 1, 1, 1] 0 3 [(0, 3)]
      = TbbEvalStencils (α := ℤ) [10, 20, 30, 40] ⟨0, 1, 1⟩ [0, 0, 0] ⟨0, 1, 1⟩
        [2, 1, 1] [0, 2, 3, 4] [0, 1, 3, 2] [1, 1, 1, 1] 0 3 [(2, 3), (0, 1), (1, 2)] :=
  C9_partition_independent (α := ℤ) [10, 20, 30, 40] [0, 0, 0] ⟨0, 1, 1⟩ ⟨0, 1, 1⟩
    [2, 1, 1] [0, 2, 3, 4] [0, 1, 3, 2] [1, 1, 1, 1] 3 3 [(0, 3)] [(2, 3), (0, 1), (1, 2)]
    (by decide) (by decide) (by decide) (by decide) (by decide) (by decide)
    ⟨[(0, 3)], by decide, List.Perm.refl _⟩
    ⟨[(0, 1), (1, 2), (2, 3)], by decide,
      (List.Perm.swap _ _ _).trans (List.Perm.cons _ (List.Perm.swap _ _ _))⟩

/-- Counterexample to C9 as stated, at two inputs with valid indices and
descriptors of length 1 and stride 1.  (a) `start = 0`, offsets `[0, 2]` with a
gap: the split `[0,2)` leaves `[10, 20]`, the split `[0,1), [1,2)` leaves
`[10, 30]`.  (b) `start = 1`, `end = 3` on a table of four stencils whose offsets
are the running sums of the sizes: the split `[1,3)` leaves `40` in row 2, the
split `[1,2), [2,3)` leaves `50`. -/
theorem C9_counterexample :
    (ValidTable (α := ℤ) [10, 20, 30] ⟨0, 1, 1⟩ [1, 1] [0, 2] [0, 1, 2] [1, 1, 1] 2 ∧
      IsSplit 0 2 [(0, 2)] ∧ IsSplit 0 2 [(0, 1), (1, 2)] ∧
      TbbEvalStencils (α := ℤ) [10, 20, 30] ⟨0, 1, 1⟩ [0, 0] ⟨0, 1, 1⟩
        [1, 1] [0, 2] [0, 1, 2] [1, 1, 1] 0 2 [(0, 2)] = some [10, 20] ∧
      TbbEvalStencils (α := ℤ) [10, 20, 30] ⟨0, 1, 1⟩ [0, 0] ⟨0, 1, 1⟩
        [1, 1] [0, 2] [0, 1, 2] [1, 1, 1] 0 2 [(0, 1), (1, 2)] = some [10, 30]) ∧
    (ValidTable (α := ℤ) [10, 20, 30, 40, 50] ⟨0, 1, 1⟩ [1, 2, 1, 1] [0, 1, 3, 4, 5]
        [0, 1, 2, 3, 4] [1, 1, 1, 1, 1] 4 ∧
      RunningSums [1, 2, 1, 1] [0, 1, 3, 4, 5] 4 ∧
      IsSplit 1 3 [(1, 3)] ∧ IsSplit 1 3 [(1, 2), (2, 3)] ∧
      TbbEvalStencils (α := ℤ) [10, 20, 30, 40, 50] ⟨0, 1, 1⟩ [0, 0, 0, 0] ⟨0, 1, 1⟩
        [1, 2, 1, 1] [0, 1, 3, 4, 5] [0, 1, 2, 3, 4] [1, 1, 1, 1, 1] 1 3 [(1, 3)]
        = some [0, 30, 40, 0] ∧
      TbbEvalStencils (α := ℤ) [10, 20, 30, 40, 50] ⟨0, 1, 1⟩ [0, 0, 0, 0] ⟨0, 1, 1⟩
        [1, 2, 1, 1] [0, 1, 3, 4, 5] [0, 1, 2, 3, 4] [1, 1, 1, 1, 1] 1 3 [(1, 2), (2, 3)]
        = some [0, 30, 50, 0]) := by
  decide

/-- C10 (amended).  Fast/generic equivalence of the two branches of the worker:
for every kernel object, every sub-range `[begin, end)` with `begin > 0`, or with
`begin = 0` and `offsets[0] = 0`, every destination buffer and every width `w`
(in particular `w = 4` and `w = 8`) with
`srcLength = dstLength = srcStride = dstStride = w`, the fixed-width branch (the
width-`w` accumulation primitive, called as the worker calls it) gives the same
result as the generic branch on the same inputs, undefined behaviour included,
for every interpretation of `0`, `+` and `*`: the operation order is the
same. -/
theorem C10_fixed_generic_equivalence {α : Type} [Zero α] [Add α] [Mul α] (w : Nat)
    (K : TBBStencilKernel α) (rbegin rend : Int) (mem : List α)
    (hsl : K._srcDesc.length = w) (hss : K._srcDesc.stride = w)
    (hds : K._dstDesc.stride = w) (hdl : K._dstDesc.length = w)
    (hb : 0 < rbegin ∨ (rbegin = 0 ∧ K._offsets.get 0 = some 0)) :
    fixedPath w K rbegin rend mem = genericPath K rbegin rend mem := by
  have hneg : ¬ K._srcDesc.length < 0 := by omega
  simp only [fixedPath, genericPath, ComputeStencilKernel, hneg, if_false]
  rcases hb with hb | ⟨hb, h0⟩
  · simp only [gt_iff_lt, hb, if_true]
    cases hoff : K._offsets.get rbegin with
    | none => rfl
    | some offset =>
      dsimp only
      rw [rowLoop_eq_fixed K w hsl hss hds hdl K._sizes]
      simp only [List.length_replicate]
      omega
  · subst hb
    rw [h0]
    simp only [gt_iff_lt, lt_self_iff_false, if_false, Ptr.add_zero]
    have := rowLoop_eq_fixed K w hsl hss hds hdl K._sizes (rend - 0).toNat 0 K._indices
      K._weights (List.replicate K._srcDesc.length.toNat none) mem
      (by simp only [List.length_replicate]; omega)
    rw [Ptr.add_zero] at this
    rw [this]

/-- Witness of C10 (amended): width 4, the sub-range `[1, 2)` of a table of two
stencils. -/
theorem C10_fixed_generic_equivalence_witness :
    fixedPath (α := ℤ) 4 ⟨⟨0, 4, 4⟩, ⟨0, 4, 4⟩, ⟨[1, 2, 3, 4, 5, 6, 7, 8], 0⟩, 0, ⟨[1, 2], 0⟩,
        ⟨[0, 1, 3], 0⟩, ⟨[0, 1, 0], 0⟩, ⟨[1, 2, 3], 0⟩⟩ 1 2 [9, 9, 9, 9, 9, 9, 9, 9]
      = genericPath (α := ℤ) ⟨⟨0, 4, 4⟩, ⟨0, 4, 4⟩, ⟨[1, 2, 3, 4, 5, 6, 7, 8], 0⟩, 0, ⟨[1, 2], 0⟩,
        ⟨[0, 1, 3], 0⟩, ⟨[0, 1, 0], 0⟩, ⟨[1, 2, 3], 0⟩⟩ 1 2 [9, 9, 9, 9, 9, 9, 9, 9] :=
  C10_fixed_generic_equivalence (α := ℤ) 4 ⟨⟨0, 4, 4⟩, ⟨0, 4, 4⟩, ⟨[1, 2, 3, 4, 5, 6, 7, 8], 0⟩, 0,
    ⟨[1, 2], 0⟩, ⟨[0, 1, 3], 0⟩, ⟨[0, 1, 0], 0⟩, ⟨[1, 2, 3], 0⟩⟩ 1 2 [9, 9, 9, 9, 9, 9, 9, 9]
    (by decide) (by decide) (by decide) (by decide) (Or.inl (by decide))

/-- Counterexample to C10 as stated, at width 4 with
`srcLength = srcStride = dstStride = 4`.  (a) `dstLength = 3`: the fixed-width
branch writes four floats of the row, the generic branch three.  (b) `begin = 0`
and `offsets[0] = 1`: the fixed-width branch starts at term 1 (source row 1),
the generic branch at term 0 (source row 0). -/
theorem C10_counterexample :
    (fixedPath (α := ℤ) 4 ⟨⟨0, 4, 4⟩, ⟨0, 3, 4⟩, ⟨[1, 2, 3, 4], 0⟩, 0, ⟨[1], 0⟩,
        ⟨[0, 1], 0⟩, ⟨[0], 0⟩, ⟨[1], 0⟩⟩ 0 1 [9, 9, 9, 9] = some [1, 2, 3, 4] ∧
      genericPath (α := ℤ) ⟨⟨0, 4, 4⟩, ⟨0, 3, 4⟩, ⟨[1, 2, 3, 4], 0⟩, 0, ⟨[1], 0⟩,
        ⟨[0, 1], 0⟩, ⟨[0], 0⟩, ⟨[1], 0⟩⟩ 0 1 [9, 9, 9, 9] = some [1, 2, 3, 9]) ∧
    (fixedPath (α := ℤ) 4 ⟨⟨0, 4, 4⟩, ⟨0, 4, 4⟩, ⟨[1, 2, 3, 4, 5, 6, 7, 8], 0⟩, 0, ⟨[1], 0⟩,
        ⟨[1, 2], 0⟩, ⟨[0, 1], 0⟩, ⟨[1, 1], 0⟩⟩ 0 1 [9, 9, 9, 9] = some [5, 6, 7, 8] ∧
      genericPath (α := ℤ) ⟨⟨0, 4, 4⟩, ⟨0, 4, 4⟩, ⟨[1, 2, 3, 4, 5, 6, 7, 8], 0⟩, 0, ⟨[1], 0⟩,
        ⟨[1, 2], 0⟩, ⟨[0, 1], 0⟩, ⟨[1, 1], 0⟩⟩ 0 1 [9, 9, 9, 9] = some [1, 2, 3, 4]) := by
  decide

/-- C11 (code defect).  The offset shift is doubled for `start > 0`.  Call with
`start = 1`, `end = 2` on the table `sizes = [1,2,3]`, `offsets = [0,1,3,6]`, one
sub-range `[1, 2)` handed to the generic path: the worker's pointers are at
positions `2` of `sizes` and `2` of `indices` and `weights`, so the term count it
reads for output vertex 1 is `sizes[2] = 3`, not `sizes[1] = 2`, and the first
term it reads is at position `offsets[1] + offsets[1] = 2`, not `offsets[1] = 1`;
row 1 gets `60` where the stencil sum is `50`. -/
theorem C11_shift_applied_twice :
    ValidTable (α := ℤ) [10, 20, 30] ⟨0, 1, 1⟩ [1, 2, 3] [0, 1, 3, 6] [0, 1, 2, 0, 1, 2]
      [1, 1, 1, 1, 1, 1] 3 ∧
    RunningSums [1, 2, 3] [0, 1, 3, 6] 3 ∧
    IsSplit 1 2 [(1, 2)] ∧
    selectPath ⟨0, 1, 1⟩ ⟨0, 1, 1⟩ = Path.generic ∧
    ((dispatchKernel (α := ℤ) [10, 20, 30] ⟨0, 1, 1⟩ ⟨0, 1, 1⟩ [1, 2, 3] [0, 1, 3, 6]
        [0, 1, 2, 0, 1, 2] [1, 1, 1, 1, 1, 1] 1).bind (fun K => genericPointers K 1)).map
      (fun t => (t.1.pos, t.1.get 0, t.2.1.pos, t.2.2.pos)) = some (2, some 3, 2, 2) ∧
    load ([1, 2, 3] : List Int) 1 = some 2 ∧
    load ([0, 1, 3, 6] : List Int) 1 = some 1 ∧
    TbbEvalStencils (α := ℤ) [10, 20, 30] ⟨0, 1, 1⟩ [0, 0, 0] ⟨0, 1, 1⟩ [1, 2, 3] [0, 1, 3, 6]
      [0, 1, 2, 0, 1, 2] [1, 1, 1, 1, 1, 1] 1 2 [(1, 2)] = some [0, 60, 0] ∧
    orderedSum (α := ℤ) [10, 20, 30] ⟨0, 1, 1⟩ [1, 2, 3] [0, 1, 3, 6] [0, 1, 2, 0, 1, 2]
      [1, 1, 1, 1, 1, 1] 1 0 = 50 := by
  decide

/-- C12.  Path selection depends only on `(srcLength, srcStride, dstStride)`:
the worker takes the fixed-width-4 path exactly when `srcLength = 4`,
`srcStride = 4` and `dstStride = 4`; it takes the fixed-width-8 path exactly
when `srcLength = 8`, `srcStride = 4` and `dstStride = 4`; it takes the generic
path for every other shape; the worker runs the branch selected; and two
kernels that agree on the three values select the same path, whatever their
offsets, destination length, pointers or range. -/
theorem C12_path_selection {α : Type} [Zero α] [Add α] [Mul α] (K K1 : TBBStencilKernel α)
    (r : Int × Int) (mem : List α) :
    (selectPath K._srcDesc K._dstDesc = Path.fixed4 ↔
      K._srcDesc.length = 4 ∧ K._srcDesc.stride = 4 ∧ K._dstDesc.stride = 4) ∧
    (selectPath K._srcDesc K._dstDesc = Path.fixed8 ↔
      K._srcDesc.length = 8 ∧ K._srcDesc.stride = 4 ∧ K._dstDesc.stride = 4) ∧
    (selectPath K._srcDesc K._dstDesc = Path.generic ↔
      ¬ (K._srcDesc.length = 4 ∧ K._srcDesc.stride = 4 ∧ K._dstDesc.stride = 4) ∧
      ¬ (K._srcDesc.length = 8 ∧ K._srcDesc.stride = 4 ∧ K._dstDesc.stride = 4)) ∧
    (K.operator r mem =
      match selectPath K._srcDesc K._dstDesc with
      | Path.fixed4 => fixedPath 4 K r.1 r.2 mem
      | Path.fixed8 => fixedPath 8 K r.1 r.2 mem
      | Path.generic => genericPath K r.1 r.2 mem) ∧
    (K._srcDesc.length = K1._srcDesc.length ∧ K._srcDesc.stride = K1._srcDesc.stride ∧
        K._dstDesc.stride = K1._dstDesc.stride →
      selectPath K._srcDesc K._dstDesc = selectPath K1._srcDesc K1._dstDesc) := by
  refine ⟨?_, ?_, ?_, rfl, ?_⟩
  · unfold selectPath
    constructor
    · intro h
      split at h
      · assumption
      · split at h <;> simp at h
    · intro h
      rw [if_pos h]
  · unfold selectPath
    constructor
    · intro h
      split at h
      · simp at h
      · split at h
        · assumption
        · simp at h
    · intro h
      have h4 : ¬ (K._srcDesc.length = 4 ∧ K._srcDesc.stride = 4 ∧ K._dstDesc.stride = 4) := by
        intro h4
        have := h.1
        have := h4.1
        omega
      rw [if_neg h4, if_pos h]
  · unfold selectPath
    constructor
    · intro h
      split at h
      · simp at h
      · split at h
        · simp at h
        · constructor <;> assumption
    · intro h
      rw [if_neg h.1, if_neg h.2]
  · intro h
    unfold selectPath
    rw [h.1, h.2.1, h.2.2]

/-- C14 (code defect).  Out-of-bounds reads for `start > 0`.  Table of `N = 2`
stencils: `sizes` of 2 entries, `offsets = [0,1,2]` (3 entries, the running sums
of the sizes), `indices` and `weights` of `offsets[2] = 2` entries, every index a
valid source row, buffers covering every row; call with `start = 1`, `end = 2`.
The worker's `sizes` pointer is at position `start + 1 = 2` and its `indices`
and `weights` pointers at `offsets[1] + offsets[1] = 2`: the reads of `sizes[2]`
and `indices[2]` are outside the caller's arrays and the call does not
return.  The same table with `start = 0` is evaluated in bounds. -/
theorem C14_reads_out_of_bounds :
    ValidTable (α := ℤ) [10, 20] ⟨0, 1, 1⟩ [1, 1] [0, 1, 2] [0, 1] [1, 1] 2 ∧
    RunningSums [1, 1] [0, 1, 2] 2 ∧
    ([0, 1, 2] : List Int).length = 2 + 1 ∧
    (([0, 1] : List Int).length : Int) = ([0, 1, 2] : List Int).getD 2 0 ∧
    (∀ i : Nat, i < 2 → ValidRow ([0, 0] : List ℤ) ⟨0, 1, 1⟩ i) ∧
    IsSplit 1 2 [(1, 2)] ∧
    selectPath ⟨0, 1, 1⟩ ⟨0, 1, 1⟩ = Path.generic ∧
    ((dispatchKernel (α := ℤ) [10, 20] ⟨0, 1, 1⟩ ⟨0, 1, 1⟩ [1, 1] [0, 1, 2] [0, 1] [1, 1]
        1).bind (fun K => genericPointers K 1)).map
      (fun t => (t.1.pos, t.1.get 0, t.2.1.pos, t.2.1.get 0)) = some (2, none, 2, none) ∧
    TbbEvalStencils (α := ℤ) [10, 20] ⟨0, 1, 1⟩ [0, 0] ⟨0, 1, 1⟩ [1, 1] [0, 1, 2] [0, 1]
      [1, 1] 1 2 [(1, 2)] = none ∧
    TbbEvalStencils (α := ℤ) [10, 20] ⟨0, 1, 1⟩ [0, 0] ⟨0, 1, 1⟩ [1, 1] [0, 1, 2] [0, 1]
      [1, 1] 0 2 [(0, 2)] = some [10, 20] := by
  decide

/-- C15.  Correctness of whole-prefix evaluation for any chunking: for every
valid table of `N` stencils whose offsets are the running sums of the sizes
(`offsets[0] = 0`, `offsets[i+1] = offsets[i] + sizes[i]`), every pair of
descriptors on the generic path of equal length `L ≥ 0` with `L ≤ dstStride`,
every `end ≤ N` with the destination rows `[0, end)` inside the destination
buffer, and every split of `[0, end)` into contiguous sub-ranges processed in
any order by the worker, the call with `start = 0` returns and leaves each
destination row `i < end` equal, on every channel, to the sum over
`j < sizes[i]` of `sourceRow(indices[offsets[i]+j]) * weights[offsets[i]+j]`,
with the terms added in stencil order, for every interpretation of `0`, `+`
and `*`. -/
theorem C15_prefix_any_chunking {α : Type} [Zero α] [Add α] [Mul α] (src dst : List α)
    (srcDesc dstDesc : VertexBufferDescriptor) (sizes offsets indices : List Int)
    (weights : List α) (N e : Nat) (tasks : List (Int × Int))
    (hgen : selectPath srcDesc dstDesc = Path.generic)
    (hlen : srcDesc.length = dstDesc.length) (hL0 : 0 ≤ srcDesc.length)
    (hds : dstDesc.length ≤ dstDesc.stride)
    (hval : ValidTable src srcDesc sizes offsets indices weights N)
    (hrun : RunningSums sizes offsets N)
    (hdst : ∀ i : Nat, i < e → ValidRow dst dstDesc i)
    (he : e ≤ N) (hsched : IsSchedule 0 e tasks) :
    ∃ dst1, TbbEvalStencils src srcDesc dst dstDesc sizes offsets indices weights 0 e tasks
        = some dst1 ∧
      ∀ i : Nat, i < e → ∀ k : Nat, (k : Int) < dstDesc.length →
        load dst1 (rowPos dstDesc i k)
          = some (orderedSum src srcDesc sizes offsets indices weights i k) := by
  obtain ⟨dst1, h⟩ := evalStencils_isSome src dst srcDesc dstDesc sizes offsets indices
    weights N e tasks hgen (by omega) (by omega) hval (runningSums_gapped hrun) hdst he hsched
  refine ⟨dst1, h, fun i hi k hk => ?_⟩
  obtain ⟨_, _, hrows⟩ := evalStencils_rows src dst srcDesc dstDesc sizes offsets indices
    weights N e tasks dst1 hgen hds hrun he hsched h
  obtain ⟨_, _, _, hq⟩ := hrows i hi
  rw [(hq k (by omega)).2.2, stencilValue_eq_orderedSum]

/-- Witness of C15: three stencils over four source rows of length 2, processed
as the sub-ranges `[2,3)`, `[0,2)` in this order. -/
theorem C15_prefix_any_chunking_witness :
    ∃ dst1, TbbEvalStencils (α := ℤ) [1, 2, 3, 4, 5, 6, 7, 8] ⟨0, 2, 2⟩ [0, 0, 0, 0, 0, 0]
        ⟨0, 2, 2⟩ [2, 0, 1] [0, 2, 2, 3] [3, 1, 2] [2, 1, 5] 0 (3 : Nat) [(2, 3), (0, 2)]
        = some dst1 ∧
      ∀ i : Nat, i < 3 → ∀ k : Nat, (k : Int) < (⟨0, 2, 2⟩ : VertexBufferDescriptor).length →
        load dst1 (rowPos ⟨0, 2, 2⟩ i k)
          = some (orderedSum (α := ℤ) [1, 2, 3, 4, 5, 6, 7, 8] ⟨0, 2, 2⟩ [2, 0, 1] [0, 2, 2, 3]
              [3, 1, 2] [2, 1, 5] i k) :=
  C15_prefix_any_chunking (α := ℤ) [1, 2, 3, 4, 5, 6, 7, 8] [0, 0, 0, 0, 0, 0] ⟨0, 2, 2⟩
    ⟨0, 2, 2⟩ [2, 0, 1] [0, 2, 2, 3] [3, 1, 2] [2, 1, 5] 3 3 [(2, 3), (0, 2)] (by decide)
    (by decide) (by decide) (by decide) (by decide) (by decide) (by decide) (by decide)
    ⟨[(0, 2), (2, 3)], by decide, List.Perm.swap _ _ _⟩

/-- C16.  The generic path clears and copies `dstDesc.length` floats but
accumulates `srcDesc.length` floats: for every call on the generic path with
`start = 0` on a valid table whose offsets are the running sums of the sizes,
with `0 ≤ dstLength ≤ srcLength`, `dstLength ≤ dstStride` and the destination
rows `[0, end)` inside the destination buffer, under every schedule, the call
returns; channel `k < dstLength` of each destination row `i < end` receives the
sum, in stencil order, of channel `k` of the referenced source rows times their
weights; the floats of that row at channels `dstLength ≤ k < dstStride` keep
their previous values; and so does every float outside the first `dstLength`
floats of the rows `[0, end)`. -/
theorem C16_dst_length_floats_written {α : Type} [Zero α] [Add α] [Mul α] (src dst : List α)
    (srcDesc dstDesc : VertexBufferDescriptor) (sizes offsets indices : List Int)
    (weights : List α) (N e : Nat) (tasks : List (Int × Int))
    (hgen : selectPath srcDesc dstDesc = Path.generic)
    (hD0 : 0 ≤ dstDesc.length) (hDL : dstDesc.length ≤ srcDesc.length)
    (hds : dstDesc.length ≤ dstDesc.stride)
    (hval : ValidTable src srcDesc sizes offsets indices weights N)
    (hrun : RunningSums sizes offsets N)
    (hdst : ∀ i : Nat, i < e → ValidRow dst dstDesc i)
    (he : e ≤ N) (hsched : IsSchedule 0 e tasks) :
    ∃ dst1, TbbEvalStencils src srcDesc dst dstDesc sizes offsets indices weights 0 e tasks
        = some dst1 ∧
      dst1.length = dst.length ∧
      (∀ i : Nat, i < e → ∀ k : Nat, (k : Int) < dstDesc.length →
        load dst1 (rowPos dstDesc i k)
          = some (orderedSum src srcDesc sizes offsets indices weights i k)) ∧
      (∀ i : Nat, i < e → ∀ k : Nat, dstDesc.length ≤ (k : Int) → (k : Int) < dstDesc.stride →
        load dst1 (rowPos dstDesc i k) = load dst (rowPos dstDesc i k)) ∧
      ∀ p : Int, (∀ i : Nat, i < e → ∀ k : Nat, (k : Int) < dstDesc.length →
        p ≠ rowPos dstDesc i k) → load dst1 p = load dst p := by
  obtain ⟨dst1, h⟩ := evalStencils_isSome src dst srcDesc dstDesc sizes offsets indices
    weights N e tasks hgen hD0 hDL hval (runningSums_gapped hrun) hdst he hsched
  obtain ⟨hl, hf, hrows⟩ := evalStencils_rows src dst srcDesc dstDesc sizes offsets indices
    weights N e tasks dst1 hgen hds hrun he hsched h
  refine ⟨dst1, h, hl, fun i hi k hk => ?_, fun i hi k hk1 hk2 => ?_, fun p hp => ?_⟩
  · obtain ⟨_, _, _, hq⟩ := hrows i hi
    rw [(hq k (by omega)).2.2, stencilValue_eq_orderedSum]
  · apply hf
    intro i1 _ q hq
    unfold rowPos
    rcases Nat.lt_trichotomy i i1 with hlt | heq | hgt
    · have h1 : ((i : Int) + 1) * dstDesc.stride ≤ (i1 : Int) * dstDesc.stride :=
        mul_le_mul_of_nonneg_right (by omega) (by omega)
      have h2 : ((i : Int) + 1) * dstDesc.stride
          = (i : Int) * dstDesc.stride + dstDesc.stride := by ring
      omega
    · subst heq
      omega
    · have := @row_lt dstDesc.stride dstDesc.length (i1 : Int) (i : Int) q k hds (by omega)
        (by omega)
      omega
  · exact hf p (fun i hi q hq => hp i hi q (by omega))

/-- Witness of C16: source rows of 3 floats, destination rows of 2 floats at
stride 4 and offset 1; two stencils, one sub-range. -/
theorem C16_dst_length_floats_written_witness :
    ∃ dst1, TbbEvalStencils (α := ℤ) [1, 2, 3, 4, 5, 6] ⟨0, 3, 3⟩ [7, 7, 7, 7, 7, 7, 7, 7, 7]
        ⟨1, 2, 4⟩ [1, 2] [0, 1, 3] [1, 0, 1] [1, 1, 2] 0 (2 : Nat) [(0, 2)] = some dst1 ∧
      dst1.length = ([7, 7, 7, 7, 7, 7, 7, 7, 7] : List ℤ).length ∧
      (∀ i : Nat, i < 2 → ∀ k : Nat, (k : Int) < (⟨1, 2, 4⟩ : VertexBufferDescriptor).length →
        load dst1 (rowPos ⟨1, 2, 4⟩ i k)
          = some (orderedSum (α := ℤ) [1, 2, 3, 4, 5, 6] ⟨0, 3, 3⟩ [1, 2] [0, 1, 3] [1, 0, 1]
              [1, 1, 2] i k)) ∧
      (∀ i : Nat, i < 2 → ∀ k : Nat, (⟨1, 2, 4⟩ : VertexBufferDescriptor).length ≤ (k : Int) →
        (k : Int) < (⟨1, 2, 4⟩ : VertexBufferDescriptor).stride →
        load dst1 (rowPos ⟨1, 2, 4⟩ i k)
          = load ([7, 7, 7, 7, 7, 7, 7, 7, 7] : List ℤ) (rowPos ⟨1, 2, 4⟩ i k)) ∧
      ∀ p : Int, (∀ i : Nat, i < 2 → ∀ k : Nat,
        (k : Int) < (⟨1, 2, 4⟩ : VertexBufferDescriptor).length →
        p ≠ rowPos ⟨1, 2, 4⟩ i k) →
        load dst1 p = load ([7, 7, 7, 7, 7, 7, 7, 7, 7] : List ℤ) p :=
  C16_dst_length_floats_written (α := ℤ) [1, 2, 3, 4, 5, 6] [7, 7, 7, 7, 7, 7, 7, 7, 7]
    ⟨0, 3, 3⟩ ⟨1, 2, 4⟩ [1, 2] [0, 1, 3] [1, 0, 1] [1, 1, 2] 2 2 [(0, 2)] (by decide)
    (by decide) (by decide) (by decide) (by decide) (by decide) (by decide) (by decide)
    ⟨[(0, 2)], by decide, List.Perm.refl _⟩

end Osd
